import Mathlib

/-!
Verification of the `mapset` Go package (files `threadunsafe.go` and
`threadsafe.go`): a shallow embedding of the two set variants
(`threadUnsafeSet`, a membership table keyed by dynamically typed values,
and `threadSafeSet`, which wraps one `threadUnsafeSet` and one
reader/writer lock), together with proofs about the claims of the
specification.

The embedding represents a Go `threadUnsafeSet` (a
`map[interface{}]struct{}`) as a duplicate-free list of its keys, in some
iteration order; Go map iteration order is unspecified, so every theorem
quantifies over all orderings.  Go dynamic values (`interface{}`) that
occur as set elements in this package are modelled by the inductive type
`GoValue`; equality of `GoValue`s models Go's `==` on `interface{}`
(dynamic type and value must both match).
-/

set_option maxRecDepth 4096

namespace Mapset

/-- Dynamically typed Go values usable as set elements in this package:
`nil`, booleans, native integers, strings, `json.Number` values (a string
of numeric characters), fixed-size string arrays (comparable Go values
that marshal to a JSON array), and `OrderedPair` values produced by
`CartesianProduct`.  Equality is Go interface equality: dynamic type and
value must both agree, so for instance `vInt 1` and `vNum "1"` are
different elements. -/
inductive GoValue where
  | vNil : GoValue
  | vBool : Bool → GoValue
  | vInt : Int → GoValue
  | vStr : String → GoValue
  | vNum : String → GoValue
  | vStrArr : List String → GoValue
  | vPair : GoValue → GoValue → GoValue
deriving DecidableEq, Repr

/-- A `threadUnsafeSet`: the membership table `map[interface{}]struct{}`,
modelled as the list of its keys in iteration order.  Well-formed tables
have no duplicate keys (`List.Nodup`). -/
abbrev GoSet := List GoValue

/-- `threadUnsafeSet.Add` (threadunsafe.go lines 53-62): if the key is
found, return `false` and leave the table unchanged; otherwise insert the
key and return `true`.  The pair holds the returned boolean and the
updated table. -/
def tusAdd (s : GoSet) (v : GoValue) : Bool × GoSet :=
  if v ∈ s then (false, s) else (true, s ++ [v])

/-- `threadUnsafeSet.Contains` (lines 64-72): true iff every given key is
in the table; vacuously true for zero keys. -/
def tusContains (s : GoSet) (keys : List GoValue) : Bool :=
  keys.all (fun k => decide (k ∈ s))

/-- `threadUnsafeSet.Cardinality` (lines 166-168): the table size. -/
def tusCardinality (s : GoSet) : Nat := s.length

/-- Iterating a source table and `Add`-ing every element into an
accumulator table: the `for elem := range ... { dst.Add(elem) }` loop that
`Union`, `Clone` and `PowerSet` use. -/
def foldAdd (acc : GoSet) (src : GoSet) : GoSet :=
  src.foldl (fun a e => (tusAdd a e).2) acc

/-- `threadUnsafeSet.Union` (lines 101-113): allocate an empty table, add
every element of the receiver, then every element of the other set. -/
def tusUnion (s o : GoSet) : GoSet :=
  foldAdd (foldAdd [] s) o

/-- `threadUnsafeSet.Intersect` (lines 115-135): loop over the smaller
operand (the receiver when `set.Cardinality() < other.Cardinality()`,
the other set otherwise), adding the elements the opposite operand
contains. -/
def tusIntersect (s o : GoSet) : GoSet :=
  if tusCardinality s < tusCardinality o then
    s.foldl (fun a e => if tusContains o [e] then (tusAdd a e).2 else a) []
  else
    o.foldl (fun a e => if tusContains s [e] then (tusAdd a e).2 else a) []

/-- `threadUnsafeSet.Difference` (lines 137-147): add to a fresh table the
receiver's elements that the other set does not contain. -/
def tusDifference (s o : GoSet) : GoSet :=
  s.foldl (fun a e => if tusContains o [e] then a else (tusAdd a e).2) []

/-- `threadUnsafeSet.SymmetricDifference` (lines 149-156):
`set.Difference(other).Union(other.Difference(set))`. -/
def tusSymmetricDifference (s o : GoSet) : GoSet :=
  tusUnion (tusDifference s o) (tusDifference o s)

/-- `threadUnsafeSet.Equal` (lines 213-226): false if the cardinalities
differ, else true iff the other set contains every receiver element. -/
def tusEqual (s o : GoSet) : Bool :=
  if tusCardinality s ≠ tusCardinality o then false
  else s.all (fun e => tusContains o [e])

/-- `threadUnsafeSet.Remove` (lines 162-164): `delete(*set, i)`. -/
def tusRemove (s : GoSet) (v : GoValue) : GoSet :=
  s.erase v

/-- `threadUnsafeSet.Pop` (lines 251-258): ranging over the table, the
first iterated element is deleted and returned; for an empty table the
loop body never runs and `nil` is returned.  In the model the first
iterated element is the head of the key list. -/
def tusPop : GoSet → GoValue × GoSet
  | [] => (GoValue.vNil, [])
  | x :: xs => (x, tusRemove (x :: xs) x)

/-- `threadUnsafeSet.CartesianProduct` (lines 288-300): add
`OrderedPair{First: i, Second: j}` for every `i` of the receiver and `j`
of the other set into a fresh table. -/
def tusCartesianProduct (s o : GoSet) : GoSet :=
  s.foldl (fun acc i => o.foldl (fun a j => (tusAdd a (GoValue.vPair i j)).2) acc) []

/-! ### Basic lemmas about `Add` and the add-everything loop -/

theorem tusAdd_snd_of_mem {s : GoSet} {v : GoValue} (h : v ∈ s) :
    (tusAdd s v).2 = s := by
  simp [tusAdd, h]

theorem tusAdd_snd_of_not_mem {s : GoSet} {v : GoValue} (h : ¬ v ∈ s) :
    (tusAdd s v).2 = s ++ [v] := by
  simp [tusAdd, h]

theorem mem_tusAdd_self (s : GoSet) (v : GoValue) : v ∈ (tusAdd s v).2 := by
  by_cases h : v ∈ s <;> simp [tusAdd, h]

theorem mem_tusAdd_of_mem {s : GoSet} {v w : GoValue} (h : w ∈ s) :
    w ∈ (tusAdd s v).2 := by
  by_cases hv : v ∈ s <;> simp [tusAdd, hv, h]

theorem tusAdd_nodup {s : GoSet} (h : s.Nodup) (v : GoValue) :
    (tusAdd s v).2.Nodup := by
  by_cases hv : v ∈ s
  · simpa [tusAdd, hv] using h
  · simp only [tusAdd, hv, if_neg, ite_false]
    simpa [List.nodup_append] using ⟨h, hv⟩

theorem tusAdd_toFinset (s : GoSet) (v : GoValue) :
    (tusAdd s v).2.toFinset = insert v s.toFinset := by
  by_cases hv : v ∈ s
  · have : v ∈ s.toFinset := List.mem_toFinset.2 hv
    simp [tusAdd, hv, Finset.insert_eq_self.2 this]
  · rw [tusAdd_snd_of_not_mem hv, List.toFinset_append, Finset.union_comm]
    simp [Finset.insert_eq]

theorem foldAdd_nodup {src : GoSet} :
    ∀ {acc : GoSet}, acc.Nodup → (foldAdd acc src).Nodup := by
  induction src with
  | nil => intro acc h; simpa [foldAdd] using h
  | cons x xs ih =>
      intro acc h
      have : foldAdd acc (x :: xs) = foldAdd (tusAdd acc x).2 xs := rfl
      rw [this]
      exact ih (tusAdd_nodup h x)

theorem foldAdd_toFinset (src : GoSet) :
    ∀ acc : GoSet, (foldAdd acc src).toFinset = acc.toFinset ∪ src.toFinset := by
  induction src with
  | nil => intro acc; simp [foldAdd]
  | cons x xs ih =>
      intro acc
      have h1 : foldAdd acc (x :: xs) = foldAdd (tusAdd acc x).2 xs := rfl
      rw [h1, ih, tusAdd_toFinset]
      ext a
      simp [or_assoc]

theorem mem_foldAdd_of_mem {acc src : GoSet} {v : GoValue} (h : v ∈ acc) :
    v ∈ foldAdd acc src := by
  have := foldAdd_toFinset src acc
  have hm : v ∈ (foldAdd acc src).toFinset := by
    rw [this]
    exact Finset.mem_union_left _ (List.mem_toFinset.2 h)
  exact List.mem_toFinset.1 hm

theorem foldAdd_of_nodup {src : GoSet} (h : src.Nodup) :
    ∀ acc : GoSet, foldAdd acc src = acc ++ src.filter (fun x => decide (¬ x ∈ acc)) := by
  induction src with
  | nil => intro acc; simp [foldAdd]
  | cons x xs ih =>
      intro acc
      have hx : ¬ x ∈ xs := (List.nodup_cons.1 h).1
      have hxs : xs.Nodup := (List.nodup_cons.1 h).2
      have h1 : foldAdd acc (x :: xs) = foldAdd (tusAdd acc x).2 xs := rfl
      by_cases hmem : x ∈ acc
      · rw [h1, tusAdd_snd_of_mem hmem, ih hxs acc]
        simp [List.filter_cons, hmem]
      · rw [h1, tusAdd_snd_of_not_mem hmem, ih hxs (acc ++ [x])]
        have hfilter : xs.filter (fun y => decide (¬ y ∈ acc ++ [x]))
            = xs.filter (fun y => decide (¬ y ∈ acc)) := by
          apply List.filter_congr
          intro y hy
          have hyx : y ≠ x := fun hEq => hx (hEq ▸ hy)
          simp [List.mem_append, hyx]
        rw [hfilter]
        simp [List.filter_cons, hmem]

theorem foldAdd_nil_of_nodup {src : GoSet} (h : src.Nodup) :
    foldAdd [] src = src := by
  rw [foldAdd_of_nodup h []]
  simp

/-! ### Claim C8: `Add` reports and establishes membership -/

/-- Claim C8: `Add(v)` returns true iff `v` was not present before the
call; afterwards `v` is present; and adding an already-present value
returns false and leaves the table unchanged. -/
theorem add_spec (s : GoSet) (v : GoValue) :
    ((tusAdd s v).1 = true ↔ ¬ v ∈ s) ∧
    v ∈ (tusAdd s v).2 ∧
    (v ∈ s → (tusAdd s v).1 = false ∧ (tusAdd s v).2 = s) := by
  refine ⟨?_, mem_tusAdd_self s v, ?_⟩
  · by_cases h : v ∈ s <;> simp [tusAdd, h]
  · intro h
    simp [tusAdd, h]

/-- Witness for C8: on the set `{1}`, adding the absent value `2` returns
true, and adding the present value `1` returns false and leaves the set
unchanged. -/
theorem add_spec_witness :
    (tusAdd [GoValue.vInt 1] (GoValue.vInt 2)).1 = true ∧
    GoValue.vInt 1 ∈ ([GoValue.vInt 1] : GoSet) ∧
    (tusAdd [GoValue.vInt 1] (GoValue.vInt 1)).1 = false ∧
    (tusAdd [GoValue.vInt 1] (GoValue.vInt 1)).2 = [GoValue.vInt 1] := by
  refine ⟨?_, by decide, ?_⟩
  · exact (add_spec [GoValue.vInt 1] (GoValue.vInt 2)).1.2 (by decide)
  · exact (add_spec [GoValue.vInt 1] (GoValue.vInt 1)).2.2 (by decide)

/-! ### Claim C9: `Pop` -/

/-- Claim C9: on a non-empty set, `Pop` returns an element of the set and
the remaining set is the original minus exactly that element, so the
cardinality drops by one; on the empty set, `Pop` returns the `nil`
sentinel and leaves the set empty. -/
theorem pop_spec (s : GoSet) (hs : s.Nodup) :
    (s = [] → tusPop s = (GoValue.vNil, [])) ∧
    (s ≠ [] →
      (tusPop s).1 ∈ s ∧
      (tusPop s).2.length + 1 = s.length ∧
      ∀ v, v ∈ (tusPop s).2 ↔ (v ∈ s ∧ v ≠ (tusPop s).1)) := by
  constructor
  · intro h; subst h; rfl
  · intro hne
    match s, hs with
    | x :: xs, hs =>
        have hx : ¬ x ∈ xs := (List.nodup_cons.1 hs).1
        have hpop : tusPop (x :: xs) = (x, xs) := by
          simp [tusPop, tusRemove, List.erase_cons]
        have h1 : (tusPop (x :: xs)).1 = x := by rw [hpop]
        have h2 : (tusPop (x :: xs)).2 = xs := by rw [hpop]
        rw [h1, h2]
        refine ⟨List.mem_cons_self x xs, by simp, ?_⟩
        intro v
        constructor
        · intro hv
          exact ⟨List.mem_cons_of_mem x hv, fun hEq => hx (hEq ▸ hv)⟩
        · rintro ⟨hv, hne'⟩
          rcases List.mem_cons.1 hv with h | h
          · exact absurd h hne'
          · exact h

/-- Witness for C9: popping `{7, 8}` returns the first iterated element
`7` and leaves `{8}`; popping the empty set returns the `nil` sentinel. -/
theorem pop_spec_witness :
    tusPop [] = (GoValue.vNil, []) ∧
    (tusPop [GoValue.vInt 7, GoValue.vInt 8]).1 ∈
      ([GoValue.vInt 7, GoValue.vInt 8] : GoSet) ∧
    (tusPop [GoValue.vInt 7, GoValue.vInt 8]).2.length + 1 = 2 := by
  have h := pop_spec [GoValue.vInt 7, GoValue.vInt 8] (by decide)
  have h2 := h.2 (by decide)
  exact ⟨(pop_spec [] (by decide)).1 rfl, h2.1, h2.2.1⟩

/-! ### Claim C5: inclusion-exclusion for `Union` and `Intersect` -/

theorem filterAdd_nodup (p : GoValue → Bool) (src : GoSet) :
    ∀ {acc : GoSet}, acc.Nodup →
      (src.foldl (fun a e => if p e then (tusAdd a e).2 else a) acc).Nodup := by
  induction src with
  | nil => intro acc h; simpa using h
  | cons x xs ih =>
      intro acc h
      by_cases hp : p x
      · simpa [hp] using ih (tusAdd_nodup h x)
      · simpa [hp] using ih h

theorem filterAdd_toFinset (p : GoValue → Bool) (src : GoSet) :
    ∀ acc : GoSet,
      (src.foldl (fun a e => if p e then (tusAdd a e).2 else a) acc).toFinset
        = acc.toFinset ∪ (src.filter p).toFinset := by
  induction src with
  | nil => intro acc; simp
  | cons x xs ih =>
      intro acc
      by_cases hp : p x
      · have h1 : (x :: xs).foldl (fun a e => if p e then (tusAdd a e).2 else a) acc
            = xs.foldl (fun a e => if p e then (tusAdd a e).2 else a) (tusAdd acc x).2 := by
          simp [hp]
        rw [h1, ih, tusAdd_toFinset, List.filter_cons_of_pos hp, List.toFinset_cons]
        ext a
        simp [or_assoc]
      · have h1 : (x :: xs).foldl (fun a e => if p e then (tusAdd a e).2 else a) acc
            = xs.foldl (fun a e => if p e then (tusAdd a e).2 else a) acc := by
          simp [hp]
        rw [h1, ih, List.filter_cons_of_neg (by simpa using hp)]

theorem tusContains_singleton (s : GoSet) (e : GoValue) :
    tusContains s [e] = decide (e ∈ s) := by
  simp [tusContains]

theorem tusUnion_toFinset (a b : GoSet) :
    (tusUnion a b).toFinset = a.toFinset ∪ b.toFinset := by
  rw [tusUnion, foldAdd_toFinset, foldAdd_toFinset]
  simp

theorem tusUnion_nodup (a b : GoSet) : (tusUnion a b).Nodup :=
  foldAdd_nodup (foldAdd_nodup List.nodup_nil)

theorem filter_mem_toFinset_inter (a b : GoSet) :
    (a.filter (fun e => tusContains b [e])).toFinset = a.toFinset ∩ b.toFinset := by
  ext x
  simp [List.mem_filter, tusContains_singleton]

theorem tusIntersect_toFinset (a b : GoSet) :
    (tusIntersect a b).toFinset = a.toFinset ∩ b.toFinset := by
  rw [tusIntersect]
  by_cases hc : tusCardinality a < tusCardinality b
  · rw [if_pos hc, filterAdd_toFinset, filter_mem_toFinset_inter]
    simp
  · rw [if_neg hc, filterAdd_toFinset, filter_mem_toFinset_inter]
    simp [Finset.inter_comm]

theorem tusIntersect_nodup (a b : GoSet) : (tusIntersect a b).Nodup := by
  rw [tusIntersect]
  by_cases hc : tusCardinality a < tusCardinality b
  · rw [if_pos hc]; exact filterAdd_nodup _ _ List.nodup_nil
  · rw [if_neg hc]; exact filterAdd_nodup _ _ List.nodup_nil

/-- Claim C5: for all duplicate-free membership tables `A` and `B`,
`|A.Union(B)| = |A| + |B| - |A.Intersect(B)|`. -/
theorem union_intersect_card (a b : GoSet) (ha : a.Nodup) (hb : b.Nodup) :
    (tusCardinality (tusUnion a b) : Int)
      = (tusCardinality a : Int) + (tusCardinality b : Int)
        - (tusCardinality (tusIntersect a b) : Int) := by
  have hu : (tusUnion a b).toFinset.card = (tusUnion a b).length :=
    List.toFinset_card_of_nodup (tusUnion_nodup a b)
  have hi : (tusIntersect a b).toFinset.card = (tusIntersect a b).length :=
    List.toFinset_card_of_nodup (tusIntersect_nodup a b)
  have hA : a.toFinset.card = a.length := List.toFinset_card_of_nodup ha
  have hB : b.toFinset.card = b.length := List.toFinset_card_of_nodup hb
  have key : (a.toFinset ∪ b.toFinset).card + (a.toFinset ∩ b.toFinset).card
      = a.toFinset.card + b.toFinset.card := Finset.card_union_add_card_inter _ _
  rw [← tusUnion_toFinset, ← tusIntersect_toFinset, hu, hi, hA, hB] at key
  simp only [tusCardinality]
  omega

/-- Witness for C5 at `A = {1, 2, 3}`, `B = {3, 4}`. -/
theorem union_intersect_card_witness :
    (tusCardinality (tusUnion [GoValue.vInt 1, GoValue.vInt 2, GoValue.vInt 3]
        [GoValue.vInt 3, GoValue.vInt 4]) : Int)
      = (3 : Int) + (2 : Int)
        - (tusCardinality (tusIntersect [GoValue.vInt 1, GoValue.vInt 2, GoValue.vInt 3]
            [GoValue.vInt 3, GoValue.vInt 4]) : Int) :=
  union_intersect_card [GoValue.vInt 1, GoValue.vInt 2, GoValue.vInt 3]
    [GoValue.vInt 3, GoValue.vInt 4] (by decide) (by decide)

/-! ### Claim C7: binary algebra operations are pure and allocate fresh sets

Go sets are handled through pointers (`*threadUnsafeSet`); `Union`,
`Intersect`, `Difference`, `SymmetricDifference` and `CartesianProduct`
each start from `newThreadUnsafeSet()` — a freshly allocated table — add
elements into it, and return its address.  To express freshness and
non-mutation of the operands we model the pointer structure with an
explicit allocation heap: addresses are naturals, `alloc` returns the
next unused address. -/

/-- A heap of allocated `threadUnsafeSet` tables, addressed by allocation
order. -/
structure Heap where
  next : Nat
  store : List (Nat × GoSet)
deriving Repr

/-- Dereference an address (unallocated addresses read as empty). -/
def Heap.get (h : Heap) (r : Nat) : GoSet :=
  match h.store.find? (fun e => e.1 == r) with
  | some e => e.2
  | none => []

/-- `newThreadUnsafeSet()` followed by populating the fresh table:
allocate a table with the given contents at the next unused address. -/
def Heap.alloc (h : Heap) (s : GoSet) : Heap × Nat :=
  ({ next := h.next + 1, store := (h.next, s) :: h.store }, h.next)

/-- `threadUnsafeSet.Union` at the heap level (lines 101-113): the result
table is freshly allocated and holds the union of both operands'
contents. -/
def unionH (h : Heap) (a b : Nat) : Heap × Nat :=
  h.alloc (tusUnion (h.get a) (h.get b))

/-- `threadUnsafeSet.Intersect` at the heap level (lines 115-135). -/
def intersectH (h : Heap) (a b : Nat) : Heap × Nat :=
  h.alloc (tusIntersect (h.get a) (h.get b))

/-- `threadUnsafeSet.Difference` at the heap level (lines 137-147). -/
def differenceH (h : Heap) (a b : Nat) : Heap × Nat :=
  h.alloc (tusDifference (h.get a) (h.get b))

/-- `threadUnsafeSet.SymmetricDifference` at the heap level (lines
149-156): allocates `sdo := a.Difference(b)`, then `ods :=
b.Difference(a)`, then returns `sdo.Union(ods)`, reading every operand
from the evolving heap exactly as the source does. -/
def symmetricDifferenceH (h : Heap) (a b : Nat) : Heap × Nat :=
  let r1 := h.alloc (tusDifference (h.get a) (h.get b))
  let h1 := r1.1
  let sdo := r1.2
  let r2 := h1.alloc (tusDifference (h1.get b) (h1.get a))
  let h2 := r2.1
  let ods := r2.2
  h2.alloc (tusUnion (h2.get sdo) (h2.get ods))

/-- `threadUnsafeSet.CartesianProduct` at the heap level (lines 288-300). -/
def cartesianProductH (h : Heap) (a b : Nat) : Heap × Nat :=
  h.alloc (tusCartesianProduct (h.get a) (h.get b))

theorem Heap.get_alloc_of_lt {h : Heap} {s : GoSet} {r : Nat} (hr : r < h.next) :
    (h.alloc s).1.get r = h.get r := by
  have hne : (h.next == r) = false := by
    simp only [beq_eq_false_iff_ne]
    omega
  simp [Heap.alloc, Heap.get, List.find?, hne]

theorem Heap.alloc_snd_ge {h : Heap} {s : GoSet} : h.next ≤ (h.alloc s).2 := le_refl _

/-- Claim C7: each binary algebra operation, run on a heap in which both
operand addresses are allocated, returns a freshly allocated table —
its address is distinct from both operands' — and leaves the contents of
both operands exactly as they were before the call. -/
theorem binary_ops_pure (h : Heap) (a b : Nat)
    (hA : a < h.next) (hB : b < h.next) :
    ((unionH h a b).2 ≠ a ∧ (unionH h a b).2 ≠ b ∧
      (unionH h a b).1.get a = h.get a ∧ (unionH h a b).1.get b = h.get b) ∧
    ((intersectH h a b).2 ≠ a ∧ (intersectH h a b).2 ≠ b ∧
      (intersectH h a b).1.get a = h.get a ∧ (intersectH h a b).1.get b = h.get b) ∧
    ((differenceH h a b).2 ≠ a ∧ (differenceH h a b).2 ≠ b ∧
      (differenceH h a b).1.get a = h.get a ∧ (differenceH h a b).1.get b = h.get b) ∧
    ((symmetricDifferenceH h a b).2 ≠ a ∧ (symmetricDifferenceH h a b).2 ≠ b ∧
      (symmetricDifferenceH h a b).1.get a = h.get a ∧
      (symmetricDifferenceH h a b).1.get b = h.get b) ∧
    ((cartesianProductH h a b).2 ≠ a ∧ (cartesianProductH h a b).2 ≠ b ∧
      (cartesianProductH h a b).1.get a = h.get a ∧
      (cartesianProductH h a b).1.get b = h.get b) := by
  have single : ∀ s : GoSet, (h.alloc s).2 ≠ a ∧ (h.alloc s).2 ≠ b ∧
      (h.alloc s).1.get a = h.get a ∧ (h.alloc s).1.get b = h.get b := by
    intro s
    exact ⟨by simp only [Heap.alloc]; omega, by simp only [Heap.alloc]; omega,
      Heap.get_alloc_of_lt hA, Heap.get_alloc_of_lt hB⟩
  refine ⟨single _, single _, single _, ?_, single _⟩
  show (symmetricDifferenceH h a b).2 ≠ a ∧ _
  rw [symmetricDifferenceH]
  have h1lt : h.next < (h.alloc (tusDifference (h.get a) (h.get b))).1.next := by
    simp [Heap.alloc]
  set h1 := (h.alloc (tusDifference (h.get a) (h.get b))).1 with hh1
  have hA1 : a < h1.next := lt_trans hA h1lt
  have hB1 : b < h1.next := lt_trans hB h1lt
  have h2lt : h1.next < (h1.alloc (tusDifference (h1.get b) (h1.get a))).1.next := by
    simp [Heap.alloc]
  set h2 := (h1.alloc (tusDifference (h1.get b) (h1.get a))).1 with hh2
  have hA2 : a < h2.next := lt_trans hA1 h2lt
  have hB2 : b < h2.next := lt_trans hB1 h2lt
  refine ⟨by simp only [Heap.alloc]; omega, by simp only [Heap.alloc]; omega, ?_, ?_⟩
  · rw [Heap.get_alloc_of_lt hA2, hh2, Heap.get_alloc_of_lt hA1, hh1,
      Heap.get_alloc_of_lt hA]
  · rw [Heap.get_alloc_of_lt hB2, hh2, Heap.get_alloc_of_lt hB1, hh1,
      Heap.get_alloc_of_lt hB]

/-- Witness for C7: a concrete heap holding `{1}` at address 0 and `{2}`
at address 1; every binary operation returns a fresh address and leaves
both operand tables untouched. -/
theorem binary_ops_pure_witness :
    (0 : Nat) < (Heap.mk 2 [(0, [GoValue.vInt 1]), (1, [GoValue.vInt 2])]).next ∧
    (1 : Nat) < (Heap.mk 2 [(0, [GoValue.vInt 1]), (1, [GoValue.vInt 2])]).next ∧
    ((unionH (Heap.mk 2 [(0, [GoValue.vInt 1]), (1, [GoValue.vInt 2])]) 0 1).2 ≠ 0 ∧
      (unionH (Heap.mk 2 [(0, [GoValue.vInt 1]), (1, [GoValue.vInt 2])]) 0 1).1.get 0
        = (Heap.mk 2 [(0, [GoValue.vInt 1]), (1, [GoValue.vInt 2])]).get 0) := by
  have h := binary_ops_pure (Heap.mk 2 [(0, [GoValue.vInt 1]), (1, [GoValue.vInt 2])]) 0 1
    (by decide) (by decide)
  exact ⟨by decide, by decide, h.1.1, h.1.2.2.1⟩

/-! ### Claims C2 and C3: locking discipline of `threadSafeSet` binary operations

Each binary method of `threadSafeSet` is a straight-line sequence of lock
statements around one combination step; we embed each method as its
literal statement list and give `defer` its Go semantics (deferred calls
run in LIFO order when the method returns).  `Mu.rcv` is the receiver's
`set.mutex`, `Mu.oth` is the operand's `o.mutex`. -/

/-- Which mutex a statement touches: the receiver's or the other
operand's. -/
inductive Mu where
  | rcv : Mu
  | oth : Mu
deriving DecidableEq, Repr

/-- One statement of a `threadSafeSet` method body that is relevant to
locking: `RLock`, `defer RUnlock`, or the combination step that runs on
the underlying unguarded sets. -/
inductive LockStmt where
  | rLock : Mu → LockStmt
  | deferRUnlock : Mu → LockStmt
  | combine : LockStmt
deriving DecidableEq, Repr

/-- An event of the resulting execution trace. -/
inductive LockEvent where
  | acq : Mu → LockEvent
  | rel : Mu → LockEvent
  | comb : LockEvent
deriving DecidableEq, Repr

/-- Execute a method body: statements run in order, `defer`red `RUnlock`s
are stacked and run in LIFO order when the method returns. -/
def execStmts (stmts : List LockStmt) : List LockEvent :=
  let p := stmts.foldl
    (fun (p : List LockEvent × List LockEvent) st =>
      match st with
      | LockStmt.rLock m => (p.1 ++ [LockEvent.acq m], p.2)
      | LockStmt.deferRUnlock m => (p.1, LockEvent.rel m :: p.2)
      | LockStmt.combine => (p.1 ++ [LockEvent.comb], p.2))
    ([], [])
  p.1 ++ p.2

/-- `threadSafeSet.Union` (threadsafe.go lines 83-93): lock the receiver,
defer its unlock, lock the operand, defer its unlock, then combine. -/
def unionStmts : List LockStmt :=
  [LockStmt.rLock Mu.rcv, LockStmt.deferRUnlock Mu.rcv,
   LockStmt.rLock Mu.oth, LockStmt.deferRUnlock Mu.oth, LockStmt.combine]

/-- `threadSafeSet.Intersect` (lines 95-105): same locking shape as
`Union`. -/
def intersectStmts : List LockStmt := unionStmts

/-- `threadSafeSet.Difference` (lines 107-117). -/
def differenceStmts : List LockStmt := unionStmts

/-- `threadSafeSet.SymmetricDifference` (lines 119-129). -/
def symmetricDifferenceStmts : List LockStmt := unionStmts

/-- `threadSafeSet.Equal` (lines 203-212). -/
def equalStmts : List LockStmt := unionStmts

/-- `threadSafeSet.IsSubset` (lines 53-62). -/
def isSubsetStmts : List LockStmt := unionStmts

/-- `threadSafeSet.IsProperSubset` (lines 64-73). -/
def isProperSubsetStmts : List LockStmt := unionStmts

/-- `threadSafeSet.CartesianProduct` (lines 250-261).  Note line 256: the
second deferred statement is `defer set.mutex.RUnlock()` — the RECEIVER's
mutex again, not `o.mutex.RUnlock()`. -/
def cartesianProductStmts : List LockStmt :=
  [LockStmt.rLock Mu.rcv, LockStmt.deferRUnlock Mu.rcv,
   LockStmt.rLock Mu.oth, LockStmt.deferRUnlock Mu.rcv, LockStmt.combine]

/-- Go `sync.RWMutex` read-lock semantics on the pair of reader counts
(receiver's, operand's): `RUnlock` of a mutex with no readers throws
("sync: RUnlock of unlocked RWMutex"), modelled as `none`. -/
def stepEvent : Option (Nat × Nat) → LockEvent → Option (Nat × Nat)
  | none, _ => none
  | some (r, o), LockEvent.acq Mu.rcv => some (r + 1, o)
  | some (r, o), LockEvent.acq Mu.oth => some (r, o + 1)
  | some (r, o), LockEvent.rel Mu.rcv => if r = 0 then none else some (r - 1, o)
  | some (r, o), LockEvent.rel Mu.oth => if o = 0 then none else some (r, o - 1)
  | some p, LockEvent.comb => some p

/-- Run a trace from zero readers on both mutexes. -/
def runEvents (evs : List LockEvent) : Option (Nat × Nat) :=
  evs.foldl stepEvent (some (0, 0))

/-- Does some prefix of the trace reach a state where both mutexes are
read-held at once? -/
def bothHeldSomewhere (evs : List LockEvent) : Bool :=
  (List.range (evs.length + 1)).any fun i =>
    match runEvents (evs.take i) with
    | some (r, o) => decide (0 < r) && decide (0 < o)
    | none => false

/-- Is both-held the state in force when the combination step runs? -/
def combineUnderBoth (evs : List LockEvent) : Bool :=
  (List.range (evs.length + 1)).all fun i =>
    match evs.drop i with
    | LockEvent.comb :: _ =>
        match runEvents (evs.take i) with
        | some (r, o) => decide (0 < r) && decide (0 < o)
        | none => false
    | _ => true

/-- Counterexample to C2 as stated: `threadSafeSet.Union` does reach a
state in which both operands' locks are held simultaneously (it
read-locks the receiver, then the operand, and runs the combination with
both locks held — there is no snapshot-then-combine). -/
theorem union_holds_both_locks :
    bothHeldSomewhere (execStmts unionStmts) = true := by decide

/-- Claim C2 as amended: every binary operation of `threadSafeSet`
(Union, Intersect, Difference, SymmetricDifference, Equal, IsSubset,
IsProperSubset, CartesianProduct) first acquires the receiver's read
lock, then the operand's read lock, and runs the combination step while
both are held simultaneously; for all of them except `CartesianProduct`
the deferred unlocks then release each lock exactly once in LIFO order,
ending with both reader counts at zero. -/
theorem binary_ops_lock_both :
    (∀ stmts ∈ [unionStmts, intersectStmts, differenceStmts,
        symmetricDifferenceStmts, equalStmts, isSubsetStmts,
        isProperSubsetStmts, cartesianProductStmts],
      (execStmts stmts).take 3
          = [LockEvent.acq Mu.rcv, LockEvent.acq Mu.oth, LockEvent.comb] ∧
      combineUnderBoth (execStmts stmts) = true ∧
      bothHeldSomewhere (execStmts stmts) = true) ∧
    (∀ stmts ∈ [unionStmts, intersectStmts, differenceStmts,
        symmetricDifferenceStmts, equalStmts, isSubsetStmts, isProperSubsetStmts],
      execStmts stmts
          = [LockEvent.acq Mu.rcv, LockEvent.acq Mu.oth, LockEvent.comb,
             LockEvent.rel Mu.oth, LockEvent.rel Mu.rcv] ∧
      runEvents (execStmts stmts) = some (0, 0)) := by decide

/-- Witness for the amended C2 at a concrete operation: the `Union` trace
acquires both locks, combines under both, and releases both exactly
once. -/
theorem binary_ops_lock_both_witness :
    unionStmts ∈ [unionStmts, intersectStmts, differenceStmts,
        symmetricDifferenceStmts, equalStmts, isSubsetStmts,
        isProperSubsetStmts, cartesianProductStmts] ∧
    combineUnderBoth (execStmts unionStmts) = true :=
  ⟨by decide, (binary_ops_lock_both.1 unionStmts (by decide)).2.1⟩

/-- Claim C3, evaluated at the failing operation: `CartesianProduct`'s
deferred statements release the receiver's lock twice and the operand's
lock never.  Running the trace throws (`none`, Go's "sync: RUnlock of
unlocked RWMutex" runtime panic on the second `RUnlock`), and the trace
contains no release of the operand's lock at all. -/
theorem cartesianProduct_lock_release_bug :
    runEvents (execStmts cartesianProductStmts) = none ∧
    (execStmts cartesianProductStmts).count (LockEvent.rel Mu.oth) = 0 ∧
    (execStmts cartesianProductStmts).count (LockEvent.rel Mu.rcv) = 2 ∧
    (execStmts cartesianProductStmts).count (LockEvent.acq Mu.rcv) = 1 := by decide

/-! ### JSON serialization

`MarshalJSON` (threadunsafe.go lines 325-338) writes
`[elem1,elem2,...]`, each element rendered by `encoding/json`'s
`json.Marshal`.  `UnmarshalJSON` (lines 342-362) decodes the whole input
with a `json.Decoder` with `UseNumber()` into `[]interface{}` — numbers
come back as `json.Number`, i.e. their raw text — returns the decode
error if any, and otherwise adds every decoded entry that is not an array
or an object.  The decoder and encoder live in Go's standard library, not
in this repository; they are modelled here by a small JSON parser and
printer with the behaviour the package relies on: one value is decoded
from the front of the input, numeric tokens are kept as raw text, string
escapes cover the quote, backslash and common control characters. -/

/-- A decoded JSON value as produced by `encoding/json` with
`UseNumber()`: `nil`, `bool`, `json.Number` (raw text), `string`,
`[]interface` and `map[string]interface`. -/
inductive JValue where
  | jNull : JValue
  | jBool : Bool → JValue
  | jNum : String → JValue
  | jStr : String → JValue
  | jArr : List JValue → JValue
  | jObj : List (String × JValue) → JValue

/-- The opening-brace character, `\x7b`. -/
def lbrace : Char := Char.ofNat 123

/-- The closing-brace character, `\x7d`. -/
def rbrace : Char := Char.ofNat 125

/-- Characters that may continue a JSON numeric token. -/
def isNumChar (c : Char) : Bool :=
  c.isDigit || c = '-' || c = '+' || c = '.' || c = 'e' || c = 'E'

/-- Meaning of a backslash escape code inside a JSON string. -/
def unescapeCode (c : Char) : Option Char :=
  if c = '"' then some '"'
  else if c = '\\' then some '\\'
  else if c = '/' then some '/'
  else if c = 'n' then some '\n'
  else if c = 't' then some '\t'
  else if c = 'r' then some '\r'
  else none

/-- Parse the body of a JSON string after the opening quote, returning
the unescaped characters and the input after the closing quote. -/
def parseStrBody : List Char → Except String (List Char × List Char)
  | [] => Except.error "unexpected end of JSON input"
  | c :: rest =>
    if c = '"' then Except.ok ([], rest)
    else if c = '\\' then
      match rest with
      | [] => Except.error "unexpected end of JSON input"
      | e :: rest2 =>
        match unescapeCode e with
        | some c2 =>
          match parseStrBody rest2 with
          | Except.ok (s, r) => Except.ok (c2 :: s, r)
          | Except.error msg => Except.error msg
        | none => Except.error "invalid character in string escape code"
    else
      match parseStrBody rest with
      | Except.ok (s, r) => Except.ok (c :: s, r)
      | Except.error msg => Except.error msg

/-- Match an exact literal continuation (`rue`, `alse`, `ull`). -/
def expectLit : List Char → List Char → JValue → Except String (JValue × List Char)
  | [], cs, v => Except.ok (v, cs)
  | _ :: _, [], _ => Except.error "unexpected end of JSON input"
  | l :: ls, c :: cs, v =>
    if c = l then expectLit ls cs v else Except.error "invalid literal"

mutual

/-- Parse one JSON value from the front of the input.  The fuel bounds
the recursion and is decremented on every nested step; the top-level
entry point supplies more fuel than any input can consume. -/
def parseVal : Nat → List Char → Except String (JValue × List Char)
  | 0, _ => Except.error "exceeded max depth"
  | _ + 1, [] => Except.error "unexpected end of JSON input"
  | fuel + 1, c :: rest =>
    if c = '"' then
      match parseStrBody rest with
      | Except.ok (s, r) => Except.ok (JValue.jStr (String.mk s), r)
      | Except.error msg => Except.error msg
    else if c = '[' then
      if rest.head? = some ']' then Except.ok (JValue.jArr [], rest.tail)
      else parseElems fuel [] rest
    else if c = lbrace then
      if rest.head? = some rbrace then Except.ok (JValue.jObj [], rest.tail)
      else parseFields fuel [] rest
    else if c = 't' then expectLit ['r', 'u', 'e'] rest (JValue.jBool true)
    else if c = 'f' then expectLit ['a', 'l', 's', 'e'] rest (JValue.jBool false)
    else if c = 'n' then expectLit ['u', 'l', 'l'] rest JValue.jNull
    else if isNumChar c then
      Except.ok (JValue.jNum (String.mk ((c :: rest).takeWhile isNumChar)),
        (c :: rest).dropWhile isNumChar)
    else Except.error "invalid character looking for beginning of value"

/-- Parse the remaining elements of a non-empty JSON array. -/
def parseElems : Nat → List JValue → List Char → Except String (JValue × List Char)
  | 0, _, _ => Except.error "exceeded max depth"
  | fuel + 1, acc, cs =>
    match parseVal fuel cs with
    | Except.error msg => Except.error msg
    | Except.ok (v, r) =>
      match r with
      | ']' :: r2 => Except.ok (JValue.jArr (acc ++ [v]), r2)
      | ',' :: r2 => parseElems fuel (acc ++ [v]) r2
      | _ => Except.error "invalid character after array element"

/-- Parse the remaining fields of a non-empty JSON object. -/
def parseFields : Nat → List (String × JValue) → List Char →
    Except String (JValue × List Char)
  | 0, _, _ => Except.error "exceeded max depth"
  | fuel + 1, acc, cs =>
    match cs with
    | '"' :: r0 =>
      match parseStrBody r0 with
      | Except.error msg => Except.error msg
      | Except.ok (k, r1) =>
        match r1 with
        | ':' :: r2 =>
          match parseVal fuel r2 with
          | Except.error msg => Except.error msg
          | Except.ok (v, r3) =>
            match r3 with
            | [] => Except.error "unexpected end of JSON input"
            | c :: r4 =>
              if c = ',' then parseFields fuel (acc ++ [(String.mk k, v)]) r4
              else if c = rbrace then
                Except.ok (JValue.jObj (acc ++ [(String.mk k, v)]), r4)
              else Except.error "invalid character after object field"
        | _ => Except.error "invalid character after object key"
    | _ => Except.error "invalid character looking for object key"

end

/-- `d.Decode(&i)` for `var i []interface{}` with `UseNumber()` enabled:
decode one JSON value from the front of the input (trailing bytes are
left unread, exactly as `json.Decoder.Decode` leaves them in the stream);
a value that is not an array cannot be decoded into `[]interface{}`. -/
def decodeTop (cs : List Char) : Except String (List JValue) :=
  match parseVal (cs.length + 1) cs with
  | Except.error msg => Except.error msg
  | Except.ok (v, _) =>
    match v with
    | JValue.jArr xs => Except.ok xs
    | _ => Except.error "cannot unmarshal value into Go value of type array of interface"

/-- The body of `UnmarshalJSON`'s range loop (lines 352-359): nested
arrays and objects are skipped with `continue`; every other decoded value
is added to the set. -/
def addDecoded (s : GoSet) : JValue → GoSet
  | JValue.jArr _ => s
  | JValue.jObj _ => s
  | JValue.jNull => (tusAdd s GoValue.vNil).2
  | JValue.jBool b => (tusAdd s (GoValue.vBool b)).2
  | JValue.jNum n => (tusAdd s (GoValue.vNum n)).2
  | JValue.jStr t => (tusAdd s (GoValue.vStr t)).2

/-- `threadUnsafeSet.UnmarshalJSON` (lines 342-362): decode the input; on
a decode error return the error with the set untouched (the `return err`
happens before the add loop); otherwise add every decoded scalar.  The
pair holds the returned error (if any) and the set after the call. -/
def tusUnmarshalJSON (s : GoSet) (b : String) : Option String × GoSet :=
  match decodeTop b.toList with
  | Except.error e => (some e, s)
  | Except.ok vs => (none, vs.foldl addDecoded s)

/-- JSON string-escaping of one character, modelling `encoding/json`'s
treatment of the quote, backslash and common control characters. -/
def escapeChar (c : Char) : List Char :=
  if c = '"' then ['\\', '"']
  else if c = '\\' then ['\\', '\\']
  else if c = '\n' then ['\\', 'n']
  else if c = '\t' then ['\\', 't']
  else if c = '\r' then ['\\', 'r']
  else [c]

/-- Escape a whole string body. -/
def escapeList (s : List Char) : List Char :=
  s.foldr (fun c acc => escapeChar c ++ acc) []

/-- `json.Marshal` of a Go string: quoted and escaped. -/
def quoteStr (s : String) : List Char :=
  '"' :: (escapeList s.toList ++ ['"'])

/-- `json.Marshal` of a `[...]string` value: the quoted components joined
with commas. -/
def joinQuoted : List String → List Char
  | [] => []
  | [x] => quoteStr x
  | x :: y :: t => quoteStr x ++ ',' :: joinQuoted (y :: t)

/-- `json.Marshal` of one set element (threadunsafe.go line 329), on its
success path: `nil` marshals to `null`, booleans and integers to their
literals, strings quoted, a `json.Number` to its raw text, a string
array to a JSON array, an `OrderedPair` struct to a JSON object with its
two field names.  `json.Marshal` first validates a `json.Number` payload
with `isValidNumber` and errors on an invalid one — see `validNum` and
`tusMarshalJSONE` for the error path; this function is the bytes of the
success path. -/
def marshalValueC : GoValue → List Char
  | GoValue.vNil => ['n', 'u', 'l', 'l']
  | GoValue.vBool true => ['t', 'r', 'u', 'e']
  | GoValue.vBool false => ['f', 'a', 'l', 's', 'e']
  | GoValue.vInt n => (toString n).toList
  | GoValue.vStr s => quoteStr s
  | GoValue.vNum s => s.toList
  | GoValue.vStrArr xs => '[' :: (joinQuoted xs ++ [']'])
  | GoValue.vPair a b =>
      lbrace :: (quoteStr "First" ++ ':' :: (marshalValueC a
        ++ ',' :: (quoteStr "Second" ++ ':' :: (marshalValueC b ++ [rbrace]))))

/-- `strings.Join(items, ",")` over the marshalled elements. -/
def joinVals : List GoValue → List Char
  | [] => []
  | [v] => marshalValueC v
  | v :: w :: t => marshalValueC v ++ ',' :: joinVals (w :: t)

/-- `threadUnsafeSet.MarshalJSON` (lines 325-338): the marshalled
elements, in iteration order, joined with commas inside brackets. -/
def marshalSetC (s : GoSet) : List Char :=
  '[' :: (joinVals s ++ [']'])

/-- `MarshalJSON` as a string. -/
def tusMarshalJSON (s : GoSet) : String :=
  String.mk (marshalSetC s)

/-! ### Claim C1: behaviour on malformed input -/

/-- Counterexample to C1 as stated: on the malformed input `[1,2,x]` the
decode error is returned, but the elements `1` and `2` that precede the
malformed fragment are NOT added — the set is still empty, because
`UnmarshalJSON` decodes the whole input before its add loop and returns
on error first. -/
theorem unmarshal_malformed_cex :
    (tusUnmarshalJSON [] "[1,2,x]").1.isSome = true ∧
    (tusUnmarshalJSON [] "[1,2,x]").2 = [] := by decide

/-- Claim C1 as amended: on every input on which the decode fails,
`UnmarshalJSON` returns a recoverable decode error and the receiving set
is exactly what it was before the call — no element of the input is
added (deserialization is atomic with respect to the set). -/
theorem unmarshal_error_atomic (s : GoSet) (b : String)
    (h : (tusUnmarshalJSON s b).1.isSome = true) :
    (tusUnmarshalJSON s b).2 = s := by
  rw [tusUnmarshalJSON] at h ⊢
  cases hdec : decodeTop b.toList with
  | error msg => simp [hdec]
  | ok vs => rw [hdec] at h; simp at h

/-- Witness for the amended C1: the malformed input `[1,2,x]` on the
non-empty set `{"a"}` produces an error and leaves the set equal to
`{"a"}`. -/
theorem unmarshal_error_atomic_witness :
    (tusUnmarshalJSON [GoValue.vStr "a"] "[1,2,x]").1.isSome = true ∧
    (tusUnmarshalJSON [GoValue.vStr "a"] "[1,2,x]").2 = [GoValue.vStr "a"] :=
  ⟨by decide, unmarshal_error_atomic [GoValue.vStr "a"] "[1,2,x]" (by decide)⟩

/-! ### Claim C10: deserialization merges into existing contents -/

theorem mem_addDecoded_of_mem {s : GoSet} {v : GoValue} (h : v ∈ s) :
    ∀ j, v ∈ addDecoded s j := by
  intro j
  cases j <;> first
    | exact h
    | exact mem_tusAdd_of_mem h

theorem mem_foldl_addDecoded_of_mem {v : GoValue} :
    ∀ (vs : List JValue) {s : GoSet}, v ∈ s → v ∈ vs.foldl addDecoded s := by
  intro vs
  induction vs with
  | nil => intro s h; exact h
  | cons j js ih =>
      intro s h
      exact ih (mem_addDecoded_of_mem h j)

/-- Claim C10: `UnmarshalJSON` merges the decoded entries into the set's
existing contents — it never clears the set, so every element present
before the call is still present after it, whatever the input. -/
theorem unmarshal_merges (s : GoSet) (b : String) (v : GoValue) (hv : v ∈ s) :
    v ∈ (tusUnmarshalJSON s b).2 := by
  rw [tusUnmarshalJSON]
  cases hdec : decodeTop b.toList with
  | error msg => simpa using hv
  | ok vs => simpa using mem_foldl_addDecoded_of_mem vs hv

/-- Witness for C10: deserializing `[1,true]` into the set `{"a"}` keeps
`"a"` in the set (and the call succeeds). -/
theorem unmarshal_merges_witness :
    GoValue.vStr "a" ∈ ([GoValue.vStr "a"] : GoSet) ∧
    GoValue.vStr "a" ∈ (tusUnmarshalJSON [GoValue.vStr "a"] "[1,true]").2 ∧
    (tusUnmarshalJSON [GoValue.vStr "a"] "[1,true]").1.isSome = false :=
  ⟨by decide, unmarshal_merges [GoValue.vStr "a"] "[1,true]" (GoValue.vStr "a") (by decide),
    by decide⟩

/-! ### Claim C6: round-trip through MarshalJSON and UnmarshalJSON -/

/-- A context tail that begins with an element separator or an array or
object terminator (what follows one marshalled value inside an array or
an object). -/
def sepHead (cs : List Char) : Prop :=
  cs.head? = some ',' ∨ cs.head? = some ']' ∨ cs.head? = some rbrace

/-- Drop a leading run of decimal digits. -/
def dropDigits (cs : List Char) : List Char :=
  cs.dropWhile Char.isDigit

/-- The exponent-or-end tail of `encoding/json`'s `isValidNumber`: after
the integer and fraction parts the rest must be empty or a well-formed
exponent (`e`/`E`, an optional sign, then one or more digits). -/
def validTail2 : List Char → Bool
  | [] => true
  | [_] => false
  | e :: c :: rest =>
    if e = 'e' || e = 'E' then
      if c = '+' || c = '-' then
        match rest with
        | [] => false
        | _ :: _ => decide (dropDigits rest = [])
      else decide (dropDigits (c :: rest) = [])
    else false

/-- The fraction-part step of `isValidNumber`: a `.` followed by at least
one digit consumes the digit run, anything else falls through to the
exponent check. -/
def validFracTail (cs : List Char) : Bool :=
  match cs with
  | c0 :: c1 :: rest =>
    if c0 = '.' && c1.isDigit then validTail2 (dropDigits rest)
    else validTail2 cs
  | _ => validTail2 cs

/-- A well-formed `json.Number` payload, translated from
`encoding/json`'s `isValidNumber` (the check `json.Marshal` runs on a
`json.Number` before emitting its raw text; RFC 8259 number grammar): an
optional minus sign, then `0` or a nonzero digit followed by digits, then
an optional fraction and an optional exponent, with nothing left over. -/
def validNum (s : String) : Bool :=
  match s.toList with
  | [] => false
  | c :: rest =>
    match (if c = '-' then rest else c :: rest) with
    | [] => false
    | d :: rest1 =>
      if d = '0' then validFracTail rest1
      else if d.isDigit then validFracTail (dropDigits rest1)
      else false

/-- Elements whose decoded form is the element itself: strings, booleans,
`nil`, and well-formed `json.Number` values.  Native integers are NOT
stable: they decode back as `json.Number`. -/
def isStableScalar : GoValue → Bool
  | GoValue.vNil => true
  | GoValue.vBool _ => true
  | GoValue.vStr _ => true
  | GoValue.vNum s => validNum s
  | _ => false

/-- Elements covered by the round-trip analysis: stable scalars,
string-array elements (the array-valued composites) and `OrderedPair`
elements with stable scalar fields (the object-valued composites). -/
def goodElem : GoValue → Bool
  | GoValue.vNil => true
  | GoValue.vBool _ => true
  | GoValue.vStr _ => true
  | GoValue.vNum s => validNum s
  | GoValue.vStrArr _ => true
  | GoValue.vInt _ => false
  | GoValue.vPair a b => isStableScalar a && isStableScalar b

/-- Whether `json.Marshal` succeeds on one element of this universe: it
fails exactly when a `json.Number` payload — possibly inside an
`OrderedPair` field — does not pass `encoding/json`'s `isValidNumber`
check ("json: invalid number literal"). -/
def marshalOk : GoValue → Bool
  | GoValue.vNum s => validNum s
  | GoValue.vPair a b => marshalOk a && marshalOk b
  | _ => true

/-- `threadUnsafeSet.MarshalJSON` (lines 325-338) with its error path:
the loop marshals each element and returns `(nil, err)` on the first
element `json.Marshal` rejects — for this universe, an element with an
invalid `json.Number` payload; otherwise the joined array is returned. -/
def tusMarshalJSONE (s : GoSet) : Except String String :=
  if s.all marshalOk then Except.ok (tusMarshalJSON s)
  else Except.error "json: invalid number literal"

/-- The decoded form of a marshalled element (with `UseNumber()`):
integers come back as `json.Number` text, string arrays as JSON arrays,
`OrderedPair` structs as JSON objects. -/
def toJ : GoValue → JValue
  | GoValue.vNil => JValue.jNull
  | GoValue.vBool b => JValue.jBool b
  | GoValue.vStr s => JValue.jStr s
  | GoValue.vNum s => JValue.jNum s
  | GoValue.vInt n => JValue.jNum (toString n)
  | GoValue.vStrArr xs => JValue.jArr (xs.map JValue.jStr)
  | GoValue.vPair a b => JValue.jObj [("First", toJ a), ("Second", toJ b)]

/-- Fuel sufficient to parse one marshalled element. -/
def needFuel : GoValue → Nat
  | GoValue.vStrArr xs => 2 * xs.length + 2
  | GoValue.vPair _ _ => 4
  | _ => 1

/-- Fuel sufficient to parse a comma-joined list of marshalled
elements. -/
def listNeed : List GoValue → Nat
  | [] => 1
  | x :: t => needFuel x + listNeed t + 1

theorem parseStrBody_esc (e c2 : Char) (tail : List Char) (h : unescapeCode e = some c2) :
    parseStrBody ('\\' :: e :: tail)
      = match parseStrBody tail with
        | Except.ok (s, r) => Except.ok (c2 :: s, r)
        | Except.error msg => Except.error msg := by
  rw [parseStrBody.eq_def]
  simp [h]

theorem parseStrBody_litc (c : Char) (tail : List Char) (h1 : ¬ c = '"')
    (h2 : ¬ c = '\\') :
    parseStrBody (c :: tail)
      = match parseStrBody tail with
        | Except.ok (s, r) => Except.ok (c :: s, r)
        | Except.error msg => Except.error msg := by
  rw [parseStrBody.eq_def]
  simp [h1, h2]

theorem parseStrBody_escape (s : List Char) :
    ∀ rest, parseStrBody (escapeList s ++ '"' :: rest) = Except.ok (s, rest) := by
  induction s with
  | nil =>
      intro rest
      have h : escapeList [] ++ '"' :: rest = '"' :: rest := rfl
      rw [h, parseStrBody.eq_def]
      simp
  | cons c s ih =>
      intro rest
      have hesc : escapeList (c :: s) ++ '"' :: rest
          = escapeChar c ++ (escapeList s ++ '"' :: rest) := by
        rw [show escapeList (c :: s) = escapeChar c ++ escapeList s from rfl,
          List.append_assoc]
      rw [hesc]
      by_cases h1 : c = '"'
      · subst h1
        rw [show escapeChar '"' = ['\\', '"'] from by decide, List.cons_append,
          List.cons_append, List.nil_append, parseStrBody_esc '"' '"' _ (by decide), ih]
      · by_cases h2 : c = '\\'
        · subst h2
          rw [show escapeChar '\\' = ['\\', '\\'] from by decide, List.cons_append,
            List.cons_append, List.nil_append, parseStrBody_esc '\\' '\\' _ (by decide), ih]
        · by_cases h3 : c = '\n'
          · subst h3
            rw [show escapeChar '\n' = ['\\', 'n'] from by decide, List.cons_append,
              List.cons_append, List.nil_append, parseStrBody_esc 'n' '\n' _ (by decide), ih]
          · by_cases h4 : c = '\t'
            · subst h4
              rw [show escapeChar '\t' = ['\\', 't'] from by decide, List.cons_append,
                List.cons_append, List.nil_append, parseStrBody_esc 't' '\t' _ (by decide),
                ih]
            · by_cases h5 : c = '\r'
              · subst h5
                rw [show escapeChar '\r' = ['\\', 'r'] from by decide, List.cons_append,
                  List.cons_append, List.nil_append,
                  parseStrBody_esc 'r' '\r' _ (by decide), ih]
              · have hch : escapeChar c = [c] := by
                  simp [escapeChar, h1, h2, h3, h4, h5]
                rw [hch, List.cons_append, List.nil_append,
                  parseStrBody_litc c _ h1 h2, ih]

theorem string_mk_toList (s : String) : String.mk s.toList = s := by
  cases s; rfl

theorem parseVal_quote (t : String) (fuel : Nat) (rest : List Char) :
    parseVal (fuel + 1) (quoteStr t ++ rest) = Except.ok (JValue.jStr t, rest) := by
  have h : quoteStr t ++ rest = '"' :: (escapeList t.toList ++ ('"' :: rest)) := by
    simp [quoteStr]
  rw [h, parseVal.eq_def]
  simp [parseStrBody_escape, string_mk_toList]

theorem takeWhile_append_of_all (p : Char → Bool) :
    ∀ (s rest : List Char), (∀ c ∈ s, p c = true) →
      (∀ d, rest.head? = some d → p d = false) →
      (s ++ rest).takeWhile p = s ∧ (s ++ rest).dropWhile p = rest := by
  intro s
  induction s with
  | nil =>
      intro rest _ hrest
      cases rest with
      | nil => exact ⟨rfl, rfl⟩
      | cons d t =>
          constructor
          · simp [List.takeWhile_cons, hrest d rfl]
          · simp [List.dropWhile_cons, hrest d rfl]
  | cons c s ih =>
      intro rest hall hrest
      have hc : p c = true := hall c (List.mem_cons_self c s)
      have ih' := ih rest (fun y hy => hall y (List.mem_cons_of_mem c hy)) hrest
      constructor
      · simp [List.takeWhile_cons, hc, ih'.1]
      · simp [List.dropWhile_cons, hc, ih'.2]

theorem numHead_facts {c : Char} (h : (c.isDigit || decide (c = '-')) = true) :
    ¬ c = '"' ∧ ¬ c = '[' ∧ ¬ c = lbrace ∧ ¬ c = 't' ∧ ¬ c = 'f' ∧ ¬ c = 'n' ∧
      isNumChar c = true := by
  rw [Bool.or_eq_true] at h
  rcases h with hd | he
  · refine ⟨?_, ?_, ?_, ?_, ?_, ?_, ?_⟩
    · rintro rfl; exact absurd hd (by decide)
    · rintro rfl; exact absurd hd (by decide)
    · rintro rfl; exact absurd hd (by decide)
    · rintro rfl; exact absurd hd (by decide)
    · rintro rfl; exact absurd hd (by decide)
    · rintro rfl; exact absurd hd (by decide)
    · simp [isNumChar, hd]
  · have : c = '-' := of_decide_eq_true he
    subst this
    refine ⟨by decide, by decide, by decide, by decide, by decide, by decide, by decide⟩

theorem sepHead_not_num {rest : List Char} (h : sepHead rest) :
    ∀ d, rest.head? = some d → isNumChar d = false := by
  intro d hd
  rcases h with h | h | h <;> rw [h] at hd <;> injection hd with hh <;> rw [← hh] <;> decide

theorem dropDigits_nil_all {cs : List Char} (h : dropDigits cs = []) :
    ∀ x ∈ cs, isNumChar x = true := by
  intro x hx
  have hd : Char.isDigit x := (List.dropWhile_eq_nil_iff.1 h) x hx
  simp [isNumChar, hd]

theorem takeWhile_digits_num {cs : List Char} :
    ∀ x ∈ cs.takeWhile Char.isDigit, isNumChar x = true := by
  intro x hx
  have hd : Char.isDigit x := List.mem_takeWhile_imp hx
  simp [isNumChar, hd]

theorem eE_num {e : Char} (he : (e = 'e' || e = 'E') = true) : isNumChar e = true := by
  rw [Bool.or_eq_true] at he
  rcases he with h1 | h1
  · have : e = 'e' := of_decide_eq_true h1
    subst this; decide
  · have : e = 'E' := of_decide_eq_true h1
    subst this; decide

theorem sign_num {c : Char} (hc : (c = '+' || c = '-') = true) : isNumChar c = true := by
  rw [Bool.or_eq_true] at hc
  rcases hc with h1 | h1
  · have : c = '+' := of_decide_eq_true h1
    subst this; decide
  · have : c = '-' := of_decide_eq_true h1
    subst this; decide

theorem validTail2_all {cs : List Char} (h : validTail2 cs = true) :
    ∀ x ∈ cs, isNumChar x = true := by
  cases cs with
  | nil => intro x hx; simp at hx
  | cons e rest0 =>
    cases rest0 with
    | nil => exact Bool.noConfusion h
    | cons c rest =>
      cases rest with
      | nil =>
          have h2 : (if e = 'e' || e = 'E' then
              if c = '+' || c = '-' then false
              else decide (dropDigits [c] = [])
            else false) = true := h
          by_cases he : (e = 'e' || e = 'E') = true
          · rw [if_pos he] at h2
            by_cases hc : (c = '+' || c = '-') = true
            · rw [if_pos hc] at h2
              exact Bool.noConfusion h2
            · rw [if_neg hc] at h2
              have hall := dropDigits_nil_all (of_decide_eq_true h2)
              intro x hx
              rcases List.mem_cons.1 hx with rfl | hx2
              · exact eE_num he
              rcases List.mem_cons.1 hx2 with rfl | hx3
              · exact hall x (List.mem_singleton.2 rfl)
              · simp at hx3
          · rw [if_neg he] at h2
            exact Bool.noConfusion h2
      | cons r0 rs =>
          have h2 : (if e = 'e' || e = 'E' then
              if c = '+' || c = '-' then decide (dropDigits (r0 :: rs) = [])
              else decide (dropDigits (c :: r0 :: rs) = [])
            else false) = true := h
          by_cases he : (e = 'e' || e = 'E') = true
          · rw [if_pos he] at h2
            by_cases hc : (c = '+' || c = '-') = true
            · rw [if_pos hc] at h2
              have hall := dropDigits_nil_all (of_decide_eq_true h2)
              intro x hx
              rcases List.mem_cons.1 hx with rfl | hx2
              · exact eE_num he
              rcases List.mem_cons.1 hx2 with rfl | hx3
              · exact sign_num hc
              · exact hall x hx3
            · rw [if_neg hc] at h2
              have hall := dropDigits_nil_all (of_decide_eq_true h2)
              intro x hx
              rcases List.mem_cons.1 hx with rfl | hx2
              · exact eE_num he
              · exact hall x hx2
          · rw [if_neg he] at h2
            exact Bool.noConfusion h2

theorem validFracTail_all {cs : List Char} (h : validFracTail cs = true) :
    ∀ x ∈ cs, isNumChar x = true := by
  cases cs with
  | nil => intro x hx; simp at hx
  | cons c0 rest0 =>
    cases rest0 with
    | nil =>
        have h' : validTail2 [c0] = true := h
        exact validTail2_all h'
    | cons c1 rest =>
        have h : (if c0 = '.' && c1.isDigit then validTail2 (dropDigits rest)
            else validTail2 (c0 :: c1 :: rest)) = true := h
        by_cases hp : (c0 = '.' && c1.isDigit) = true
        · rw [if_pos hp] at h
          rw [Bool.and_eq_true] at hp
          have hc0 : c0 = '.' := of_decide_eq_true hp.1
          have hc1 : Char.isDigit c1 = true := hp.2
          intro x hx
          rcases List.mem_cons.1 hx with rfl | hx2
          · subst hc0; decide
          rcases List.mem_cons.1 hx2 with rfl | hx3
          · simp [isNumChar, hc1]
          · have hsplit := List.takeWhile_append_dropWhile (p := Char.isDigit) (l := rest)
            rw [← hsplit] at hx3
            rcases List.mem_append.1 hx3 with h4 | h4
            · exact takeWhile_digits_num x h4
            · exact validTail2_all h x h4
        · rw [if_neg hp] at h
          exact validTail2_all h

theorem validNumTail_all {d : Char} {rest1 : List Char}
    (h : (if d = '0' then validFracTail rest1
          else if d.isDigit then validFracTail (dropDigits rest1) else false) = true) :
    ∀ x ∈ d :: rest1, isNumChar x = true := by
  by_cases h0 : d = '0'
  · rw [if_pos h0] at h
    intro x hx
    rcases List.mem_cons.1 hx with rfl | hx2
    · subst h0; decide
    · exact validFracTail_all h x hx2
  · rw [if_neg h0] at h
    by_cases hd : d.isDigit = true
    · rw [if_pos hd] at h
      intro x hx
      rcases List.mem_cons.1 hx with rfl | hx2
      · simp [isNumChar, hd]
      · have hsplit := List.takeWhile_append_dropWhile (p := Char.isDigit) (l := rest1)
        rw [← hsplit] at hx2
        rcases List.mem_append.1 hx2 with h4 | h4
        · exact takeWhile_digits_num x h4
        · exact validFracTail_all h x h4
    · rw [if_neg hd] at h
      exact Bool.noConfusion h

theorem validNum_head_all {s : String} {c : Char} {cs : List Char}
    (hlist : s.toList = c :: cs) (h : validNum s = true) :
    (c.isDigit || decide (c = '-')) = true ∧ ∀ x ∈ c :: cs, isNumChar x = true := by
  rw [validNum, hlist] at h
  have h0 : (match (if c = '-' then cs else c :: cs) with
      | [] => false
      | d :: rest1 =>
        if d = '0' then validFracTail rest1
        else if d.isDigit then validFracTail (dropDigits rest1)
        else false) = true := h
  by_cases hc : c = '-'
  · rw [if_pos hc] at h0
    subst hc
    cases cs with
    | nil => exact Bool.noConfusion h0
    | cons d rest1 =>
        have h1 : (if d = '0' then validFracTail rest1
            else if d.isDigit then validFracTail (dropDigits rest1) else false) = true := h0
        refine ⟨by decide, ?_⟩
        intro x hx
        rcases List.mem_cons.1 hx with rfl | hx2
        · decide
        · exact validNumTail_all h1 x hx2
  · rw [if_neg hc] at h0
    have h' : (if c = '0' then validFracTail cs
        else if c.isDigit then validFracTail (dropDigits cs) else false) = true := h0
    have hcd : c.isDigit = true := by
      by_cases hz : c = '0'
      · subst hz; decide
      · rw [if_neg hz] at h'
        by_cases hd : c.isDigit = true
        · exact hd
        · rw [if_neg hd] at h'
          exact Bool.noConfusion h'
    have h' : (if c = '0' then validFracTail cs
        else if c.isDigit then validFracTail (dropDigits cs) else false) = true := h0
    exact ⟨by simp [hcd], validNumTail_all h'⟩

theorem parseVal_scalar (v : GoValue) (hv : isStableScalar v = true) :
    ∀ (fuel : Nat) (rest : List Char), sepHead rest →
      parseVal (fuel + 1) (marshalValueC v ++ rest) = Except.ok (toJ v, rest) := by
  intro fuel rest hrest
  cases v with
  | vNil =>
      rw [show marshalValueC GoValue.vNil ++ rest
          = 'n' :: 'u' :: 'l' :: 'l' :: rest from rfl, parseVal.eq_def]
      simp [lbrace]
      rfl
  | vBool b =>
      cases b
      · rw [show marshalValueC (GoValue.vBool false) ++ rest
            = 'f' :: 'a' :: 'l' :: 's' :: 'e' :: rest from rfl, parseVal.eq_def]
        simp [lbrace]
        rfl
      · rw [show marshalValueC (GoValue.vBool true) ++ rest
            = 't' :: 'r' :: 'u' :: 'e' :: rest from rfl, parseVal.eq_def]
        simp [lbrace]
        rfl
  | vStr s => exact parseVal_quote s fuel rest
  | vNum s =>
      have hvn : validNum s = true := hv
      rcases hlist : s.toList with _ | ⟨c, cs⟩
      · rw [validNum, hlist] at hvn
        exact Bool.noConfusion hvn
      · obtain ⟨hhead, hall⟩ := validNum_head_all hlist hvn
        obtain ⟨hq, hbk, hlb, ht, hf, hn, hnum⟩ := numHead_facts hhead
        have hm : marshalValueC (GoValue.vNum s) ++ rest = c :: (cs ++ rest) := by
          rw [marshalValueC, hlist]; rfl
        rw [hm]
        have htw := takeWhile_append_of_all isNumChar (c :: cs) rest hall
          (sepHead_not_num hrest)
        have hstep : parseVal (fuel + 1) (c :: (cs ++ rest))
            = Except.ok (JValue.jNum (String.mk ((c :: (cs ++ rest)).takeWhile isNumChar)),
                (c :: (cs ++ rest)).dropWhile isNumChar) := by
          rw [parseVal.eq_def]
          simp [hq, hbk, hlb, ht, hf, hn, hnum]
        rw [hstep]
        have hc1 : (c :: (cs ++ rest)).takeWhile isNumChar = c :: cs := by
          have : c :: (cs ++ rest) = (c :: cs) ++ rest := rfl
          rw [this, htw.1]
        have hc2 : (c :: (cs ++ rest)).dropWhile isNumChar = rest := by
          have : c :: (cs ++ rest) = (c :: cs) ++ rest := rfl
          rw [this, htw.2]
        rw [hc1, hc2, ← hlist, string_mk_toList]
        rfl
  | vInt n => exact absurd hv (by simp [isStableScalar])
  | vStrArr xs => exact absurd hv (by simp [isStableScalar])
  | vPair a b => exact absurd hv (by simp [isStableScalar])

theorem parseVal_lbracket_pos (fuel : Nat) (tail : List Char)
    (h : tail.head? = some ']') :
    parseVal (fuel + 1) ('[' :: tail) = Except.ok (JValue.jArr [], tail.tail) := by
  rw [parseVal.eq_def]
  simp [h]

theorem parseVal_lbracket_neg (fuel : Nat) (tail : List Char)
    (h : ¬ tail.head? = some ']') :
    parseVal (fuel + 1) ('[' :: tail) = parseElems fuel [] tail := by
  rw [parseVal.eq_def]
  simp [h]

theorem parseVal_lbrace_neg (fuel : Nat) (tail : List Char)
    (h : ¬ tail.head? = some rbrace) :
    parseVal (fuel + 1) (lbrace :: tail) = parseFields fuel [] tail := by
  rw [parseVal.eq_def]
  simp [lbrace, h]

theorem parseFields_field_more (fuel : Nat) (key : String) (v : JValue)
    (tail r4 : List Char) (acc : List (String × JValue))
    (hv : parseVal fuel tail = Except.ok (v, ',' :: r4)) :
    parseFields (fuel + 1) acc (quoteStr key ++ ':' :: tail)
      = parseFields fuel (acc ++ [(key, v)]) r4 := by
  have hq : quoteStr key ++ ':' :: tail
      = '"' :: (escapeList key.toList ++ ('"' :: (':' :: tail))) := by
    simp [quoteStr]
  rw [hq, parseFields.eq_def]
  simp [parseStrBody_escape, hv, string_mk_toList]

theorem parseFields_field_close (fuel : Nat) (key : String) (v : JValue)
    (tail r4 : List Char) (acc : List (String × JValue))
    (hv : parseVal fuel tail = Except.ok (v, rbrace :: r4)) :
    parseFields (fuel + 1) acc (quoteStr key ++ ':' :: tail)
      = Except.ok (JValue.jObj (acc ++ [(key, v)]), r4) := by
  have hq : quoteStr key ++ ':' :: tail
      = '"' :: (escapeList key.toList ++ ('"' :: (':' :: tail))) := by
    simp [quoteStr]
  rw [hq, parseFields.eq_def]
  simp [parseStrBody_escape, hv, string_mk_toList,
    eq_false (show ¬ (rbrace = ',') from by decide)]

theorem parseElems_join :
    ∀ (ys : List GoValue) (x : GoValue) (fuel : Nat) (acc : List JValue) (rest : List Char),
      (∀ y ∈ x :: ys, ∀ (f : Nat) (r : List Char), needFuel y ≤ f → sepHead r →
          parseVal f (marshalValueC y ++ r) = Except.ok (toJ y, r)) →
      listNeed (x :: ys) ≤ fuel →
      parseElems fuel acc (joinVals (x :: ys) ++ ']' :: rest)
        = Except.ok (JValue.jArr (acc ++ (x :: ys).map toJ), rest) := by
  intro ys
  induction ys with
  | nil =>
      intro x fuel acc rest hels hfuel
      have hln : needFuel x + 1 + 1 ≤ fuel := hfuel
      obtain ⟨g, rfl⟩ : ∃ g, fuel = g + 1 := ⟨fuel - 1, by omega⟩
      have hg : needFuel x ≤ g := by omega
      have hx := hels x (List.mem_cons_self x []) g (']' :: rest) hg (Or.inr (Or.inl rfl))
      have hj : joinVals [x] ++ ']' :: rest = marshalValueC x ++ ']' :: rest := rfl
      rw [hj, parseElems.eq_def]
      simp [hx]
  | cons y t ih =>
      intro x fuel acc rest hels hfuel
      have hln : needFuel x + listNeed (y :: t) + 1 ≤ fuel := hfuel
      obtain ⟨g, rfl⟩ : ∃ g, fuel = g + 1 := ⟨fuel - 1, by omega⟩
      have hg1 : needFuel x ≤ g := by omega
      have hg2 : listNeed (y :: t) ≤ g := by omega
      have hx := hels x (List.mem_cons_self x (y :: t)) g
        (',' :: (joinVals (y :: t) ++ ']' :: rest)) hg1 (Or.inl rfl)
      have hih := ih y g (acc ++ [toJ x]) rest
        (fun z hz f r hf hr => hels z (List.mem_cons_of_mem x hz) f r hf hr) hg2
      have hjoin : joinVals (x :: y :: t) ++ ']' :: rest
          = marshalValueC x ++ (',' :: (joinVals (y :: t) ++ ']' :: rest)) := by
        rw [show joinVals (x :: y :: t) = marshalValueC x ++ ',' :: joinVals (y :: t)
          from rfl]
        simp
      rw [hjoin, parseElems.eq_def]
      simp [hx, hih]

theorem joinQuoted_eq (xs : List String) :
    joinQuoted xs = joinVals (xs.map GoValue.vStr) := by
  induction xs with
  | nil => rfl
  | cons x t ih =>
      cases t with
      | nil => rfl
      | cons y t2 =>
          rw [show joinQuoted (x :: y :: t2) = quoteStr x ++ ',' :: joinQuoted (y :: t2)
            from rfl, ih, List.map_cons, List.map_cons, List.map_cons]
          rw [show joinVals (GoValue.vStr x :: GoValue.vStr y :: t2.map GoValue.vStr)
              = marshalValueC (GoValue.vStr x)
                ++ ',' :: joinVals (GoValue.vStr y :: t2.map GoValue.vStr) from rfl]
          rfl

theorem listNeed_map_vStr (xs : List String) :
    listNeed (xs.map GoValue.vStr) = 2 * xs.length + 1 := by
  induction xs with
  | nil => rfl
  | cons x t ih =>
      have h : listNeed ((x :: t).map GoValue.vStr)
          = needFuel (GoValue.vStr x) + listNeed (t.map GoValue.vStr) + 1 := rfl
      rw [h, ih, show needFuel (GoValue.vStr x) = 1 from rfl]
      simp [List.length_cons]
      omega

theorem parseVal_good (v : GoValue) (hv : goodElem v = true) :
    ∀ (f : Nat) (rest : List Char), needFuel v ≤ f → sepHead rest →
      parseVal f (marshalValueC v ++ rest) = Except.ok (toJ v, rest) := by
  cases v with
  | vNil =>
      intro f rest hf hrest
      obtain ⟨g, rfl⟩ : ∃ g, f = g + 1 := ⟨f - 1, by have : (1 : Nat) ≤ f := hf; omega⟩
      exact parseVal_scalar GoValue.vNil rfl g rest hrest
  | vBool b =>
      intro f rest hf hrest
      obtain ⟨g, rfl⟩ : ∃ g, f = g + 1 := ⟨f - 1, by have : (1 : Nat) ≤ f := hf; omega⟩
      exact parseVal_scalar (GoValue.vBool b) rfl g rest hrest
  | vStr u =>
      intro f rest hf hrest
      obtain ⟨g, rfl⟩ : ∃ g, f = g + 1 := ⟨f - 1, by have : (1 : Nat) ≤ f := hf; omega⟩
      exact parseVal_scalar (GoValue.vStr u) rfl g rest hrest
  | vNum u =>
      intro f rest hf hrest
      obtain ⟨g, rfl⟩ : ∃ g, f = g + 1 := ⟨f - 1, by have : (1 : Nat) ≤ f := hf; omega⟩
      exact parseVal_scalar (GoValue.vNum u) hv g rest hrest
  | vInt n => exact Bool.noConfusion hv
  | vPair a b =>
      intro f rest hf hrest
      have hgood2 : (isStableScalar a && isStableScalar b) = true := hv
      rw [Bool.and_eq_true] at hgood2
      have hf4 : 4 ≤ f := hf
      obtain ⟨g, rfl⟩ : ∃ g, f = g + 4 := ⟨f - 4, by omega⟩
      have hm : marshalValueC (GoValue.vPair a b) ++ rest
          = lbrace :: (quoteStr "First" ++ ':' :: (marshalValueC a
            ++ ',' :: (quoteStr "Second" ++ ':' :: (marshalValueC b
              ++ rbrace :: rest)))) := by
        rw [show marshalValueC (GoValue.vPair a b) = lbrace :: (quoteStr "First"
          ++ ':' :: (marshalValueC a ++ ',' :: (quoteStr "Second"
            ++ ':' :: (marshalValueC b ++ [rbrace])))) from rfl]
        simp
      rw [hm]
      have hT : (quoteStr "First" ++ ':' :: (marshalValueC a
          ++ ',' :: (quoteStr "Second" ++ ':' :: (marshalValueC b
            ++ rbrace :: rest)))).head? = some '"' := by
        rw [show quoteStr "First" = '"' :: (escapeList "First".toList ++ ['"']) from rfl]
        rfl
      have hne : ¬ (quoteStr "First" ++ ':' :: (marshalValueC a
          ++ ',' :: (quoteStr "Second" ++ ':' :: (marshalValueC b
            ++ rbrace :: rest)))).head? = some rbrace := by
        rw [hT]
        intro hcon
        injection hcon with hh
        exact absurd hh (by decide)
      rw [show g + 4 = (g + 3) + 1 from rfl, parseVal_lbrace_neg (g + 3) _ hne]
      rw [show g + 3 = (g + 2) + 1 from rfl,
        parseFields_field_more (g + 2) "First" (toJ a) _ _ []
          (parseVal_scalar a hgood2.1 (g + 1) _ (Or.inl rfl))]
      rw [List.nil_append]
      rw [show g + 2 = (g + 1) + 1 from rfl,
        parseFields_field_close (g + 1) "Second" (toJ b) _ _ [("First", toJ a)]
          (parseVal_scalar b hgood2.2 g _ (Or.inr (Or.inr rfl)))]
      rfl
  | vStrArr xs =>
      intro f rest hf hrest
      have hf2 : 2 * xs.length + 2 ≤ f := hf
      obtain ⟨g, rfl⟩ : ∃ g, f = g + 1 := ⟨f - 1, by omega⟩
      have hm : marshalValueC (GoValue.vStrArr xs) ++ rest
          = '[' :: (joinQuoted xs ++ (']' :: rest)) := by
        rw [show marshalValueC (GoValue.vStrArr xs) = '[' :: (joinQuoted xs ++ [']'])
          from rfl]
        simp
      rw [hm]
      cases xs with
      | nil =>
          rw [show joinQuoted ([] : List String) ++ (']' :: rest) = ']' :: rest from rfl,
            parseVal_lbracket_pos g (']' :: rest) rfl]
          rfl
      | cons u t =>
          have hhead : (joinQuoted (u :: t) ++ (']' :: rest)).head? = some '"' := by
            cases t with
            | nil => rfl
            | cons w t2 => rfl
          have hne : ¬ (joinQuoted (u :: t) ++ (']' :: rest)).head? = some ']' := by
            rw [hhead]
            intro h
            injection h with hh
            exact absurd hh (by decide)
          rw [parseVal_lbracket_neg g _ hne, joinQuoted_eq, List.map_cons]
          have hels : ∀ y ∈ GoValue.vStr u :: t.map GoValue.vStr,
              ∀ (f' : Nat) (r : List Char), needFuel y ≤ f' → sepHead r →
                parseVal f' (marshalValueC y ++ r) = Except.ok (toJ y, r) := by
            intro y hy f' r hf' hr
            have hy2 : y ∈ (u :: t).map GoValue.vStr := by
              rw [List.map_cons]
              exact hy
            obtain ⟨w, _, rfl⟩ := List.mem_map.1 hy2
            obtain ⟨g2, rfl⟩ : ∃ g2, f' = g2 + 1 :=
              ⟨f' - 1, by have : (1 : Nat) ≤ f' := hf'; omega⟩
            exact parseVal_scalar (GoValue.vStr w) rfl g2 r hr
          have hfuel : listNeed (GoValue.vStr u :: t.map GoValue.vStr) ≤ g := by
            have h1 : GoValue.vStr u :: t.map GoValue.vStr
                = (u :: t).map GoValue.vStr := by rw [List.map_cons]
            rw [h1, listNeed_map_vStr]
            simp [List.length_cons] at hf2 ⊢
            omega
          have := parseElems_join (t.map GoValue.vStr) (GoValue.vStr u) g [] rest
            hels hfuel
          rw [this]
          have hmap : (GoValue.vStr u :: t.map GoValue.vStr).map toJ
              = (u :: t).map JValue.jStr := by
            rw [List.map_cons, List.map_cons, List.map_map]
            rfl
          rw [show ([] : List JValue) ++ (GoValue.vStr u :: t.map GoValue.vStr).map toJ
              = (GoValue.vStr u :: t.map GoValue.vStr).map toJ from by simp, hmap]
          rfl

theorem marshal_head (v : GoValue) (hv : goodElem v = true) :
    ∃ c cs, marshalValueC v = c :: cs ∧ ¬ c = ']' := by
  cases v with
  | vNil => exact ⟨'n', _, rfl, by decide⟩
  | vBool b => cases b
               · exact ⟨'f', _, rfl, by decide⟩
               · exact ⟨'t', _, rfl, by decide⟩
  | vStr s => exact ⟨'"', _, rfl, by decide⟩
  | vStrArr xs => exact ⟨'[', _, rfl, by decide⟩
  | vInt n => exact Bool.noConfusion hv
  | vPair a b => exact ⟨lbrace, _, rfl, by decide⟩
  | vNum s =>
      have hvn : validNum s = true := hv
      rcases hlist : s.toList with _ | ⟨c, cs⟩
      · rw [validNum, hlist] at hvn
        exact Bool.noConfusion hvn
      · obtain ⟨hhead, _⟩ := validNum_head_all hlist hvn
        rw [Bool.or_eq_true] at hhead
        refine ⟨c, cs, by rw [show marshalValueC (GoValue.vNum s) = s.toList from rfl,
          hlist], ?_⟩
        rcases hhead with hd | he
        · rintro rfl; exact absurd hd (by decide)
        · have : c = '-' := of_decide_eq_true he
          subst this; decide

theorem quoteStr_len (s : String) : 2 ≤ (quoteStr s).length := by
  rw [quoteStr]
  simp

theorem joinQuoted_len (xs : List String) :
    2 * xs.length ≤ (joinQuoted xs).length := by
  induction xs with
  | nil => simp [joinQuoted]
  | cons x t ih =>
      cases t with
      | nil =>
          rw [show joinQuoted [x] = quoteStr x from rfl]
          have := quoteStr_len x
          simp
          omega
      | cons y t2 =>
          rw [show joinQuoted (x :: y :: t2) = quoteStr x ++ ',' :: joinQuoted (y :: t2)
            from rfl]
          have h1 := quoteStr_len x
          simp [List.length_append, List.length_cons] at ih ⊢
          omega

theorem needFuel_le_len (v : GoValue) (hv : goodElem v = true) :
    needFuel v ≤ (marshalValueC v).length := by
  cases v with
  | vNil => decide
  | vBool b => cases b <;> decide
  | vStr s =>
      have := quoteStr_len s
      rw [show needFuel (GoValue.vStr s) = 1 from rfl,
        show marshalValueC (GoValue.vStr s) = quoteStr s from rfl]
      omega
  | vNum s =>
      obtain ⟨c, cs, hm, _⟩ := marshal_head (GoValue.vNum s) hv
      rw [show needFuel (GoValue.vNum s) = 1 from rfl, hm]
      simp
  | vStrArr xs =>
      have := joinQuoted_len xs
      rw [show needFuel (GoValue.vStrArr xs) = 2 * xs.length + 2 from rfl,
        show marshalValueC (GoValue.vStrArr xs) = '[' :: (joinQuoted xs ++ [']'])
          from rfl]
      simp [List.length_cons, List.length_append]
      omega
  | vInt n => exact Bool.noConfusion hv
  | vPair a b =>
      rw [show needFuel (GoValue.vPair a b) = 4 from rfl,
        show marshalValueC (GoValue.vPair a b) = lbrace :: (quoteStr "First"
          ++ ':' :: (marshalValueC a ++ ',' :: (quoteStr "Second"
            ++ ':' :: (marshalValueC b ++ [rbrace])))) from rfl]
      simp [List.length_cons, List.length_append]
      omega

theorem listNeed_le (s : GoSet) (h : ∀ v ∈ s, goodElem v = true) :
    listNeed s ≤ (joinVals s).length + 2 := by
  induction s with
  | nil => decide
  | cons x t ih =>
      have hx := h x (List.mem_cons_self x t)
      have hnf := needFuel_le_len x hx
      cases t with
      | nil =>
          rw [show listNeed [x] = needFuel x + 1 + 1 from rfl,
            show joinVals [x] = marshalValueC x from rfl]
          omega
      | cons y t2 =>
          have ih' := ih (fun v hv => h v (List.mem_cons_of_mem x hv))
          rw [show listNeed (x :: y :: t2) = needFuel x + listNeed (y :: t2) + 1 from rfl,
            show joinVals (x :: y :: t2) = marshalValueC x ++ ',' :: joinVals (y :: t2)
              from rfl]
          simp [List.length_append, List.length_cons] at ih' ⊢
          omega

theorem joinVals_head_ne (x : GoValue) (t : GoSet) (r : List Char)
    (hx : goodElem x = true) :
    ¬ ((joinVals (x :: t) ++ r).head? = some ']') := by
  obtain ⟨c, cs, hm, hc⟩ := marshal_head x hx
  cases t with
  | nil =>
      rw [show joinVals [x] = marshalValueC x from rfl, hm]
      simp [hc]
  | cons y t2 =>
      rw [show joinVals (x :: y :: t2) = marshalValueC x ++ ',' :: joinVals (y :: t2)
        from rfl, hm]
      simp [hc]

theorem decodeTop_marshal (s : GoSet) (h : ∀ v ∈ s, goodElem v = true) :
    decodeTop (marshalSetC s) = Except.ok (s.map toJ) := by
  cases s with
  | nil =>
      rw [decodeTop, show marshalSetC [] = '[' :: (']' :: []) from rfl]
      rw [show ('[' :: (']' :: [])).length + 1 = 2 + 1 from rfl,
        parseVal_lbracket_pos 2 (']' :: []) rfl]
      rfl
  | cons x t =>
      have hx := h x (List.mem_cons_self x t)
      have hne := joinVals_head_ne x t (']' :: []) hx
      have hval : parseVal ((joinVals (x :: t)).length + 2 + 1)
          ('[' :: (joinVals (x :: t) ++ (']' :: [])))
          = Except.ok (JValue.jArr ((x :: t).map toJ), []) := by
        rw [parseVal_lbracket_neg ((joinVals (x :: t)).length + 2)
          (joinVals (x :: t) ++ (']' :: [])) hne]
        have hj := parseElems_join t x ((joinVals (x :: t)).length + 2) [] []
          (fun y hy f r hf hr => parseVal_good y (h y hy) f r hf hr)
          (listNeed_le (x :: t) h)
        rw [show joinVals (x :: t) ++ (']' :: []) = joinVals (x :: t) ++ ']' :: []
          from rfl, hj]
        simp
      rw [decodeTop,
        show marshalSetC (x :: t) = '[' :: (joinVals (x :: t) ++ (']' :: [])) from rfl,
        show ('[' :: (joinVals (x :: t) ++ (']' :: []))).length
          = (joinVals (x :: t)).length + 2 from by simp,
        hval]

theorem addDecoded_toJ_stable (x : GoValue) (hx : isStableScalar x = true)
    (acc : GoSet) : addDecoded acc (toJ x) = (tusAdd acc x).2 := by
  cases x with
  | vNil => rfl
  | vBool b => rfl
  | vStr s => rfl
  | vNum s => rfl
  | vInt n => exact Bool.noConfusion hx
  | vStrArr xs => exact Bool.noConfusion hx
  | vPair a b => exact Bool.noConfusion hx

theorem foldl_addDecoded_toJ :
    ∀ s : GoSet, (∀ v ∈ s, goodElem v = true) →
      ∀ acc : GoSet,
        (s.map toJ).foldl addDecoded acc = foldAdd acc (s.filter isStableScalar) := by
  intro s
  induction s with
  | nil => intro _ acc; rfl
  | cons x t ih =>
      intro h acc
      have hx := h x (List.mem_cons_self x t)
      have ih' := ih (fun v hv => h v (List.mem_cons_of_mem x hv))
      cases hst : isStableScalar x with
      | true =>
          have h1 : ((x :: t).map toJ).foldl addDecoded acc
              = (t.map toJ).foldl addDecoded (addDecoded acc (toJ x)) := rfl
          rw [h1, addDecoded_toJ_stable x hst, ih' ((tusAdd acc x).2)]
          have h2 : (x :: t).filter isStableScalar = x :: t.filter isStableScalar := by
            simp [List.filter_cons, hst]
          rw [h2]
          rfl
      | false =>
          cases x with
          | vNil => exact Bool.noConfusion hst
          | vBool b => exact Bool.noConfusion hst
          | vStr u => exact Bool.noConfusion hst
          | vNum u =>
              have h1 : validNum u = true := hx
              have h2 : validNum u = false := hst
              rw [h1] at h2
              exact Bool.noConfusion h2
          | vInt n => exact Bool.noConfusion hx
          | vPair a b =>
              have h1 : ((GoValue.vPair a b :: t).map toJ).foldl addDecoded acc
                  = (t.map toJ).foldl addDecoded acc := rfl
              have h2 : (GoValue.vPair a b :: t).filter isStableScalar
                  = t.filter isStableScalar := by
                simp [List.filter_cons, isStableScalar]
              rw [h1, h2, ih' acc]
          | vStrArr xs =>
              have h1 : ((GoValue.vStrArr xs :: t).map toJ).foldl addDecoded acc
                  = (t.map toJ).foldl addDecoded acc := rfl
              have h2 : (GoValue.vStrArr xs :: t).filter isStableScalar
                  = t.filter isStableScalar := by
                simp [List.filter_cons, isStableScalar]
              rw [h1, h2, ih' acc]

theorem tusEqual_self (s : GoSet) : tusEqual s s = true := by
  have h1 : ¬ (tusCardinality s ≠ tusCardinality s) := by simp
  rw [tusEqual, if_neg h1, List.all_eq_true]
  intro e he
  rw [tusContains_singleton]
  exact decide_eq_true he

/-- Counterexample to C6 as stated: the set containing the scalar element
`int 1` round-trips to the set containing `json.Number "1"` — a different
element under Go interface equality — so `Equal` on the round-tripped set
and the original returns false even though every element of the original
set is scalar. -/
theorem roundtrip_int_cex :
    (tusUnmarshalJSON [] (tusMarshalJSON [GoValue.vInt 1])).2 = [GoValue.vNum "1"] ∧
    tusEqual (tusUnmarshalJSON [] (tusMarshalJSON [GoValue.vInt 1])).2
      [GoValue.vInt 1] = false := by decide

theorem isStableScalar_marshalOk {v : GoValue} (h : isStableScalar v = true) :
    marshalOk v = true := by
  cases v with
  | vNum s => exact h
  | vNil => rfl
  | vBool b => rfl
  | vStr s => rfl
  | vInt n => exact Bool.noConfusion h
  | vStrArr xs => exact Bool.noConfusion h
  | vPair a b => exact Bool.noConfusion h

theorem goodElem_marshalOk {v : GoValue} (h : goodElem v = true) :
    marshalOk v = true := by
  cases v with
  | vNum s => exact h
  | vNil => rfl
  | vBool b => rfl
  | vStr s => rfl
  | vInt n => exact Bool.noConfusion h
  | vStrArr xs => rfl
  | vPair a b =>
      have h2 : (isStableScalar a && isStableScalar b) = true := h
      rw [Bool.and_eq_true] at h2
      show (marshalOk a && marshalOk b) = true
      rw [Bool.and_eq_true]
      exact ⟨isStableScalar_marshalOk h2.1, isStableScalar_marshalOk h2.2⟩

/-- Claim C6 as amended: for a duplicate-free set whose elements are
strings, booleans, `nil`, valid `json.Number` values, string-array
values, or `OrderedPair` values with scalar fields, `MarshalJSON`
succeeds (on this universe `json.Marshal` errors exactly on an invalid
`json.Number` payload, which the hypothesis excludes), and deserializing
the output into a fresh empty set yields exactly the stable scalar
elements, in order: the array-valued and object-valued elements are lost,
and exactly those.  When every element is a stable scalar the round-trip
reproduces a set `Equal` to the original.  (As stated the claim fails for
native numeric scalars, which decode back as `json.Number`: see the
counterexample.) -/
theorem roundtrip_spec (s : GoSet) (hnd : s.Nodup)
    (hgood : ∀ v ∈ s, goodElem v = true) :
    tusMarshalJSONE s = Except.ok (tusMarshalJSON s) ∧
    (tusUnmarshalJSON [] (tusMarshalJSON s)).2 = s.filter isStableScalar ∧
    ((∀ v ∈ s, isStableScalar v = true) →
      tusEqual (tusUnmarshalJSON [] (tusMarshalJSON s)).2 s = true) := by
  have hok : s.all marshalOk = true := by
    rw [List.all_eq_true]
    intro v hv
    exact goodElem_marshalOk (hgood v hv)
  have hmarshal : tusMarshalJSONE s = Except.ok (tusMarshalJSON s) := by
    rw [tusMarshalJSONE, if_pos hok]
  have hdec : decodeTop (tusMarshalJSON s).toList = Except.ok (s.map toJ) := by
    rw [show (tusMarshalJSON s).toList = marshalSetC s from rfl,
      decodeTop_marshal s hgood]
  have hmain : (tusUnmarshalJSON [] (tusMarshalJSON s)).2 = s.filter isStableScalar := by
    rw [tusUnmarshalJSON, hdec]
    show (s.map toJ).foldl addDecoded ([] : GoSet) = s.filter isStableScalar
    rw [foldl_addDecoded_toJ s hgood []]
    exact foldAdd_nil_of_nodup (hnd.filter _)
  refine ⟨hmarshal, hmain, ?_⟩
  intro hall
  have hfe : s.filter isStableScalar = s := List.filter_eq_self.mpr hall
  rw [hmain, hfe]
  exact tusEqual_self s

/-- Witness for the amended C6: the set
`{"a", Number 7, ["x"], OrderedPair("p", Number 2)}` marshals without
error and round-trips to `{"a", Number 7}` — losing exactly the
array-valued element and the object-valued element — and the all-scalar
set `{"a", Number 7}` round-trips to an `Equal` set. -/
theorem roundtrip_spec_witness :
    ([GoValue.vStr "a", GoValue.vNum "7", GoValue.vStrArr ["x"],
      GoValue.vPair (GoValue.vStr "p") (GoValue.vNum "2")] : GoSet).Nodup ∧
    tusMarshalJSONE [GoValue.vStr "a", GoValue.vNum "7", GoValue.vStrArr ["x"],
        GoValue.vPair (GoValue.vStr "p") (GoValue.vNum "2")]
      = Except.ok (tusMarshalJSON [GoValue.vStr "a", GoValue.vNum "7",
          GoValue.vStrArr ["x"], GoValue.vPair (GoValue.vStr "p") (GoValue.vNum "2")]) ∧
    (tusUnmarshalJSON []
        (tusMarshalJSON [GoValue.vStr "a", GoValue.vNum "7", GoValue.vStrArr ["x"],
          GoValue.vPair (GoValue.vStr "p") (GoValue.vNum "2")])).2
      = [GoValue.vStr "a", GoValue.vNum "7"] ∧
    tusEqual (tusUnmarshalJSON []
        (tusMarshalJSON [GoValue.vStr "a", GoValue.vNum "7"])).2
      [GoValue.vStr "a", GoValue.vNum "7"] = true := by
  refine ⟨by decide, ?_, ?_, ?_⟩
  · exact (roundtrip_spec [GoValue.vStr "a", GoValue.vNum "7", GoValue.vStrArr ["x"],
      GoValue.vPair (GoValue.vStr "p") (GoValue.vNum "2")] (by decide) (by decide)).1
  · have h := roundtrip_spec [GoValue.vStr "a", GoValue.vNum "7", GoValue.vStrArr ["x"],
      GoValue.vPair (GoValue.vStr "p") (GoValue.vNum "2")] (by decide) (by decide)
    rw [h.2.1]
    decide
  · exact (roundtrip_spec [GoValue.vStr "a", GoValue.vNum "7"]
      (by decide) (by decide)).2.2 (by decide)

/-! ### Claim C4: `PowerSet`

`PowerSet` (threadunsafe.go lines 260-286) builds a set whose members are
`*threadUnsafeSet` pointers: the accumulator starts as `{&emptyset}`; for
each source element, a fresh subset pointer is allocated per existing
member (the reflect branch always takes the pointer path, since every
member is an unnamed pointer type) and the family of new pointers is
unioned in.  Pointers are modelled as allocation-ordered addresses; a
member of the power set is the pair of its address and the table it
points to. -/

/-- `Add` on a pointer-keyed table: membership compares the address,
exactly as Go compares `*threadUnsafeSet` map keys. -/
def powAdd (acc : List (Nat × GoSet)) (e : Nat × GoSet) : List (Nat × GoSet) :=
  if e.1 ∈ acc.map Prod.fst then acc else acc ++ [e]

/-- The add-every-member loop on pointer-keyed tables. -/
def powFold (acc : List (Nat × GoSet)) (l : List (Nat × GoSet)) : List (Nat × GoSet) :=
  l.foldl powAdd acc

/-- `powSet.Union(&u)` (line 282): a fresh table receiving the members of
the accumulator and then the members of `u`. -/
def powUnion (a b : List (Nat × GoSet)) : List (Nat × GoSet) :=
  powFold (powFold [] a) b

/-- The inner loop (lines 266-280): for each member `er` of the
accumulator, copy the table behind it into `p`, add `item`, and add the
fresh pointer `&p` to `u`. -/
def buildU (item : GoValue) : List (Nat × GoSet) → Nat → List (Nat × GoSet) × Nat
  | [], next => ([], next)
  | e :: rest, next =>
    ((next, (tusAdd (foldAdd [] e.2) item).2) :: (buildU item rest (next + 1)).1,
      (buildU item rest (next + 1)).2)

/-- One iteration of the outer loop (lines 265-283). -/
def powStep (pow : List (Nat × GoSet)) (next : Nat) (item : GoValue) :
    List (Nat × GoSet) × Nat :=
  ((powUnion pow (buildU item pow next).1), (buildU item pow next).2)

/-- The body of `for item := range *set`. -/
def powerLoop (st : List (Nat × GoSet) × Nat) (item : GoValue) :
    List (Nat × GoSet) × Nat :=
  powStep st.1 st.2 item

/-- `threadUnsafeSet.PowerSet` (lines 260-286): start with the empty
subset at address 0, then run the outer loop over the source elements. -/
def tusPowerSet (s : GoSet) : List (Nat × GoSet) × Nat :=
  s.foldl powerLoop ([(0, [])], 1)

/-- The loop invariant of `PowerSet` after the elements `pre` have been
processed: member addresses are distinct and below the allocation
counter, there are exactly `2 ^ |pre|` members, one member is the empty
subset and one member equals the processed prefix. -/
def PowInv (pow : List (Nat × GoSet)) (next : Nat) (pre : GoSet) : Prop :=
  (pow.map Prod.fst).Nodup ∧
  (∀ a ∈ pow.map Prod.fst, a < next) ∧
  pow.length = 2 ^ pre.length ∧
  (∃ e ∈ pow, e.2 = []) ∧
  (∃ e ∈ pow, e.2 = pre)

theorem powFold_disjoint :
    ∀ (l acc : List (Nat × GoSet)),
      (∀ e ∈ l, ¬ e.1 ∈ acc.map Prod.fst) → (l.map Prod.fst).Nodup →
      powFold acc l = acc ++ l := by
  intro l
  induction l with
  | nil => intro acc _ _; simp [powFold]
  | cons e rest ih =>
      intro acc hdisj hnd
      have he : ¬ e.1 ∈ acc.map Prod.fst := hdisj e (List.mem_cons_self e rest)
      have hfst : ¬ e.1 ∈ rest.map Prod.fst := by
        rw [List.map_cons, List.nodup_cons] at hnd
        exact hnd.1
      have hnd' : (rest.map Prod.fst).Nodup := by
        rw [List.map_cons, List.nodup_cons] at hnd
        exact hnd.2
      have h1 : powFold acc (e :: rest) = powFold (powAdd acc e) rest := rfl
      rw [h1, show powAdd acc e = acc ++ [e] from by rw [powAdd, if_neg he]]
      have hdisj' : ∀ x ∈ rest, ¬ x.1 ∈ (acc ++ [e]).map Prod.fst := by
        intro x hx
        rw [List.map_append]
        intro hmem
        rcases List.mem_append.1 hmem with h | h
        · exact hdisj x (List.mem_cons_of_mem e hx) h
        · have hx1 : x.1 = e.1 := by simpa using h
          exact hfst (hx1 ▸ List.mem_map_of_mem Prod.fst hx)
      rw [ih (acc ++ [e]) hdisj' hnd']
      simp

theorem powFold_nil_self (l : List (Nat × GoSet)) (hnd : (l.map Prod.fst).Nodup) :
    powFold [] l = l := by
  rw [powFold_disjoint l [] (by simp) hnd]
  simp

theorem buildU_spec (item : GoValue) :
    ∀ (pow : List (Nat × GoSet)) (next : Nat),
      (buildU item pow next).2 = next + pow.length ∧
      (buildU item pow next).1.length = pow.length ∧
      (∀ a ∈ (buildU item pow next).1.map Prod.fst,
        next ≤ a ∧ a < next + pow.length) ∧
      ((buildU item pow next).1.map Prod.fst).Nodup ∧
      (∀ e ∈ pow, ∃ a,
        (a, (tusAdd (foldAdd [] e.2) item).2) ∈ (buildU item pow next).1) := by
  intro pow
  induction pow with
  | nil =>
      intro next
      exact ⟨by simp [buildU], by simp [buildU], by simp [buildU], by simp [buildU],
        by simp⟩
  | cons e rest ih =>
      intro next
      obtain ⟨ih1, ih2, ih3, ih4, ih5⟩ := ih (next + 1)
      have hb1 : (buildU item (e :: rest) next).1
          = (next, (tusAdd (foldAdd [] e.2) item).2)
            :: (buildU item rest (next + 1)).1 := rfl
      have hb2 : (buildU item (e :: rest) next).2
          = (buildU item rest (next + 1)).2 := rfl
      refine ⟨?_, ?_, ?_, ?_, ?_⟩
      · rw [hb2, ih1]
        simp [List.length_cons]
        omega
      · rw [hb1]
        simp [List.length_cons, ih2]
      · rw [hb1]
        intro a ha
        rw [List.map_cons] at ha
        rcases List.mem_cons.1 ha with h | h
        · subst h
          simp [List.length_cons]
        · have := ih3 a h
          simp [List.length_cons]
          omega
      · rw [hb1, List.map_cons, List.nodup_cons]
        refine ⟨?_, ih4⟩
        intro hmem
        have := (ih3 next hmem).1
        omega
      · intro x hx
        rcases List.mem_cons.1 hx with h | h
        · subst h
          exact ⟨next, by rw [hb1]; exact List.mem_cons_self _ _⟩
        · obtain ⟨a, ha⟩ := ih5 x h
          exact ⟨a, by rw [hb1]; exact List.mem_cons_of_mem _ ha⟩

theorem powStep_inv (pow : List (Nat × GoSet)) (next : Nat) (pre : GoSet)
    (item : GoValue) (hinv : PowInv pow next pre) (hpre : pre.Nodup)
    (hitem : ¬ item ∈ pre) :
    PowInv (powStep pow next item).1 (powStep pow next item).2 (pre ++ [item]) := by
  obtain ⟨hnd, hbound, hlen, hempty, hdiag⟩ := hinv
  obtain ⟨b1, b2, b3, b4, b5⟩ := buildU_spec item pow next
  have hdisj : ∀ e ∈ (buildU item pow next).1, ¬ e.1 ∈ pow.map Prod.fst := by
    intro e he hmem
    have h1 := (b3 e.1 (List.mem_map_of_mem Prod.fst he)).1
    have h2 := hbound e.1 hmem
    omega
  have hunion : powUnion pow (buildU item pow next).1
      = pow ++ (buildU item pow next).1 := by
    rw [powUnion, powFold_nil_self pow hnd,
      powFold_disjoint (buildU item pow next).1 pow hdisj b4]
  have hstep1 : (powStep pow next item).1 = pow ++ (buildU item pow next).1 := by
    rw [powStep]
    exact hunion
  have hstep2 : (powStep pow next item).2 = next + pow.length := by
    rw [powStep]
    exact b1
  refine ⟨?_, ?_, ?_, ?_, ?_⟩
  · rw [hstep1, List.map_append, List.nodup_append]
    refine ⟨hnd, b4, ?_⟩
    intro a ha hmem
    have h1 := hbound a ha
    have h2 := (b3 a hmem).1
    omega
  · rw [hstep1, hstep2, List.map_append]
    intro a ha
    rcases List.mem_append.1 ha with h | h
    · have := hbound a h
      omega
    · exact (b3 a h).2
  · rw [hstep1, List.length_append, b2, hlen, List.length_append]
    simp [List.length_cons]
    ring
  · obtain ⟨e, he, he2⟩ := hempty
    exact ⟨e, by rw [hstep1]; exact List.mem_append_left _ he, he2⟩
  · obtain ⟨e, he, he2⟩ := hdiag
    obtain ⟨a, ha⟩ := b5 e he
    refine ⟨(a, (tusAdd (foldAdd [] e.2) item).2),
      by rw [hstep1]; exact List.mem_append_right _ ha, ?_⟩
    show (tusAdd (foldAdd [] e.2) item).2 = pre ++ [item]
    rw [he2, foldAdd_nil_of_nodup hpre, tusAdd_snd_of_not_mem hitem]

theorem powLoop_inv :
    ∀ (rest pre : GoSet) (pow : List (Nat × GoSet)) (next : Nat),
      (pre ++ rest).Nodup → PowInv pow next pre →
      PowInv (rest.foldl powerLoop (pow, next)).1 (rest.foldl powerLoop (pow, next)).2
        (pre ++ rest) := by
  intro rest
  induction rest with
  | nil =>
      intro pre pow next hnd hinv
      simpa using hinv
  | cons item rest2 ih =>
      intro pre pow next hnd hinv
      have hsplit := List.nodup_append.1 hnd
      have hpre : pre.Nodup := hsplit.1
      have hitem : ¬ item ∈ pre := by
        intro hmem
        exact hsplit.2.2 hmem (List.mem_cons_self item rest2)
      have hstep := powStep_inv pow next pre item hinv hpre hitem
      have hfold : (item :: rest2).foldl powerLoop (pow, next)
          = rest2.foldl powerLoop (powStep pow next item) := rfl
      rw [hfold]
      have hnd2 : ((pre ++ [item]) ++ rest2).Nodup := by
        rw [List.append_assoc]
        simpa using hnd
      have h2 := ih (pre ++ [item]) (powStep pow next item).1
        (powStep pow next item).2 hnd2 ?_
      · have hassoc : (pre ++ [item]) ++ rest2 = pre ++ item :: rest2 := by
          rw [List.append_assoc]
          rfl
        rw [hassoc] at h2
        simpa using h2
      · simpa using hstep

/-- Claim C4: for every duplicate-free source set with `n` elements, the
power set built by the source algorithm has exactly `2 ^ n` members (its
pointer keys are pairwise distinct), one member's table is the empty set,
and one member's table equals the source set itself. -/
theorem powerSet_spec (s : GoSet) (hs : s.Nodup) :
    ((tusPowerSet s).1.map Prod.fst).Nodup ∧
    (tusPowerSet s).1.length = 2 ^ s.length ∧
    (∃ e ∈ (tusPowerSet s).1, e.2 = []) ∧
    (∃ e ∈ (tusPowerSet s).1, e.2 = s) := by
  have hinv0 : PowInv [(0, [])] 1 [] := by
    refine ⟨by simp, by simp, by simp, ⟨(0, []), by simp⟩, ⟨(0, []), by simp⟩⟩
  have h := powLoop_inv s [] [(0, [])] 1 (by simpa using hs) hinv0
  rw [List.nil_append] at h
  exact ⟨h.1, h.2.2.1, h.2.2.2.1, h.2.2.2.2⟩

/-- Witness for C4 at the two-element source set `{1, 2}`: the power set
has `2 ^ 2 = 4` members, including the empty subset and the full set. -/
theorem powerSet_spec_witness :
    ([GoValue.vInt 1, GoValue.vInt 2] : GoSet).Nodup ∧
    (tusPowerSet [GoValue.vInt 1, GoValue.vInt 2]).1.length = 4 ∧
    (∃ e ∈ (tusPowerSet [GoValue.vInt 1, GoValue.vInt 2]).1, e.2 = []) ∧
    (∃ e ∈ (tusPowerSet [GoValue.vInt 1, GoValue.vInt 2]).1,
      e.2 = [GoValue.vInt 1, GoValue.vInt 2]) := by
  have h := powerSet_spec [GoValue.vInt 1, GoValue.vInt 2] (by decide)
  refine ⟨by decide, ?_, h.2.2.1, h.2.2.2⟩
  rw [h.2.1]
  decide

end Mapset
